import Mathlib

/-!
Verification of the wsdl-tsclient schema-to-type-graph resolver.

This file shallowly embeds the parser core (`parseDefinition` / `parseWsdl`),
the primitive type mapper (`getType`), and the relevant slice of the emission
stage (`generateDefinitionFile`) from the repository source.  Raw schema nodes
live in an explicit heap indexed by numeric identities, so the JavaScript
reference-identity semantics of the visited-shape cache is modelled by
identity of heap indices.  JavaScript mutation of the growing definition
collection is modelled by explicit state passing; a definition object is
identified with its index (creation order) in the session collection, so
"same instance" becomes "same index".  Recursion over the possibly-cyclic
raw-node graph uses an explicit fuel parameter; the constructor
`ParseError.outOfFuel` is a modelling artifact that is never produced when
enough fuel is supplied (proved below), and is deliberately not converted by
the error-wrapping catch blocks, which in the source catch real JavaScript
exceptions only.
-/

namespace WsdlTs

/-- One case pair: a lowercase letter and its uppercase form.  Used by the
model of the `change-case` utility, which is not part of the provided
sources. -/
def upPairs : List (Char × Char) :=
  [('a','A'), ('b','B'), ('c','C'), ('d','D'), ('e','E'), ('f','F'), ('g','G'),
   ('h','H'), ('i','I'), ('j','J'), ('k','K'), ('l','L'), ('m','M'), ('n','N'),
   ('o','O'), ('p','P'), ('q','Q'), ('r','R'), ('s','S'), ('t','T'), ('u','U'),
   ('v','V'), ('w','W'), ('x','X'), ('y','Y'), ('z','Z')]

/-- Uppercase a single character (identity outside `a`-`z`). -/
def upChar (c : Char) : Char :=
  ((upPairs.find? (fun p => decide (p.1 = c))).map (fun p => p.2)).getD c

/-- Lowercase a single character (identity outside `A`-`Z`). -/
def lowChar (c : Char) : Char :=
  ((upPairs.find? (fun p => decide (p.2 = c))).map (fun p => p.1)).getD c

/-- Modelled from the spec: the `utils/change-case` module is not among the
provided sources.  Per the spec the resolver stylizes names by PascalCasing
(first letter up) or camelCasing (first letter down) a proposed name. -/
def changeCase (s : String) (pascalCase : Bool) : String :=
  match s.data with
  | [] => ""
  | c :: cs => String.mk ((if pascalCase then upChar c else lowChar c) :: cs)

/-- Split a character list at every occurrence of the separator; the
JavaScript `String.prototype.split` with a one-character separator. -/
def splitCharList (sep : Char) : List Char → List (List Char)
  | [] => [[]]
  | c :: cs =>
    match splitCharList sep cs with
    | [] => [[c]]
    | h :: t => if c = sep then [] :: h :: t else (c :: h) :: t

/-- JavaScript `s.split(sep)` for a one-character separator. -/
def splitOnChar (sep : Char) (s : String) : List String :=
  (splitCharList sep s.data).map String.mk

/-- JavaScript `s.endsWith("[]")`. -/
def endsWithArr (s : String) : Bool :=
  decide (s.data.reverse.take 2 = [']', '['])

/-- ASCII lowercasing of a string, modelling `String.prototype.toLowerCase`
for the registry's case-insensitive comparison. -/
def asciiLower (s : String) : String :=
  String.mk (s.data.map lowChar)

/-- The fixed primitive lookup table of `getType` (source lines 29-42);
`none` models a key absent from the JavaScript object literal. -/
def primitiveTable (t : String) : Option String :=
  if t = "int" then some "number"
  else if t = "integer" then some "number"
  else if t = "short" then some "number"
  else if t = "long" then some "number"
  else if t = "double" then some "number"
  else if t = "float" then some "number"
  else if t = "decimal" then some "number"
  else if t = "bool" then some "boolean"
  else if t = "boolean" then some "boolean"
  else if t = "dateTime" then some "Date"
  else if t = "date" then some "Date"
  else if t = "anyType" then some "any"
  else none

/-- `getType` from the source: strip everything before the last `:`,
look the token up in the fixed table, and default to `"string"`. -/
def getType (type : String) : String :=
  (primitiveTable ((splitOnChar ':' type).getLastD "")).getD "string"

/-- One property of a generated `Definition`.  A `reference` stores the index
of the referenced definition in the session collection (object identity in
the source).  The optional `description` mirrors the source, where only the
non-array cache-hit branch adds a `description` field to a REFERENCE. -/
inductive Property where
  | primitive (name sourceName description type : String) (isArray : Bool)
  | reference (name sourceName : String) (description : Option String)
      (ref : Nat) (isArray : Bool)
deriving DecidableEq, Repr

structure Definition where
  name : String
  sourceName : String
  docs : List String
  properties : List Property
  description : String
deriving DecidableEq, Repr

/-- The `parts` value remembered by the visited-shape cache.  JavaScript
`===` compares strings by value and objects by identity; object identity is
modelled by the heap index carried by `node`. -/
inductive VisitedParts where
  | str (s : String)
  | node (id : Nat)
  | absent
deriving DecidableEq, Repr

structure VisitedDefinition where
  name : String
  parts : VisitedParts
  defIdx : Nat
deriving DecidableEq, Repr

/-- `findReferenceDefiniton` from the source (lines 44-46): first visited
entry whose remembered parts are `===`-equal to the probed parts. -/
def findReferenceDefiniton (visited : List VisitedDefinition)
    (definitionParts : VisitedParts) : Option VisitedDefinition :=
  visited.find? (fun d => decide (d.parts = definitionParts))

/-- A raw value sitting under one property key of a raw structure: a
primitive descriptor string, an opaque `ComplexTypeElement` (carrying its
`$name`), or a nested structure given by its heap identity. -/
inductive RawVal where
  | prim (s : String)
  | complexType (name : String)
  | node (id : Nat)
deriving DecidableEq, Repr

/-- A raw structural node: its optional `typeName` field, whether it carries
the decoder quirk (a literal `"undefined"` key whose value is `undefined`),
and its remaining entries in declaration order. -/
structure RawNode where
  typeName : Option String
  undefQuirk : Bool
  entries : List (String × RawVal)
deriving DecidableEq, Repr

/-- The raw-node heap: reference identity is index identity. -/
abbrev Heap := List (Nat × RawNode)

def Heap.lookupNode (h : Heap) (i : Nat) : Option RawNode :=
  (h.find? (fun p => decide (p.1 = i))).map (fun p => p.2)

/-- The `defParts` argument of `parseDefinition`: a delimited descriptor
string, a structural node (by identity), or an absent/falsy value. -/
inductive DefParts where
  | str (s : String)
  | node (id : Nat)
  | absent
deriving DecidableEq, Repr

def DefParts.toVisited : DefParts → VisitedParts
  | .str s => .str s
  | .node i => .node i
  | .absent => .absent

/-- JavaScript truthiness of a `parts` value (`undefined`, `null` and `""`
are falsy). -/
def DefParts.truthy : DefParts → Bool
  | .str s => decide (s ≠ "")
  | .node _ => true
  | .absent => false

/-- JavaScript `typeof parts === "string"`. -/
def DefParts.isStr : DefParts → Bool
  | .str _ => true
  | _ => false

/-- `ParserOptions` from the source (lines 10-14). -/
structure ParserOptions where
  modelNamePreffix : String
  modelNameSuffix : String
  maxRecursiveDefinitionName : Nat
deriving DecidableEq, Repr

/-- `defaultOptions` from the source (lines 16-20). -/
def defaultOptions : ParserOptions :=
  { modelNamePreffix := ""
    modelNameSuffix := ""
    maxRecursiveDefinitionName := 64 }

/-- Modelled from the spec: the per-session configuration held by the
`ParsedWsdl` registry object (`models/parsed-wsdl`, not among the provided
sources): the collision-retry ceiling (`maxStack`, fed from
`maxRecursiveDefinitionName`, spec default 64) and the spec's
`caseInsensitiveNameComparison` flag. -/
structure SessionConfig where
  maxStack : Nat
  caseInsensitive : Bool
deriving DecidableEq, Repr

/-- Modelled from the spec: whether some already-registered Definition has
the candidate name, compared case-sensitively or case-insensitively per
configuration (Name Registry, spec section 4.2). -/
def nameTaken (cfg : SessionConfig) (defs : List Definition) (cand : String) : Bool :=
  defs.any (fun d =>
    if cfg.caseInsensitive then decide (asciiLower d.name = asciiLower cand)
    else decide (d.name = cand))

/-- Modelled from the spec: `ParsedWsdl.findNonCollisionDefinitionName`
(`models/parsed-wsdl` is not among the provided sources).  The proposed name
is accepted as-is when free; otherwise increasing numeric suffixes `Name2`,
`Name3`, … are tried, at most `maxStack` of them; `none` models the thrown
`NameCollisionExhausted` error. -/
def findNonCollisionDefinitionName (cfg : SessionConfig)
    (defs : List Definition) (defName : String) : Option String :=
  if nameTaken cfg defs defName then
    (List.range cfg.maxStack).findSome? (fun k =>
      let cand := defName ++ toString (k + 2)
      if nameTaken cfg defs cand then none else some cand)
  else some defName

/-- Modelled from the spec: `ParsedWsdl.findDefinition`, the registry lookup
`lookup(finalName) -> Definition | absent` (spec section 4.2); returns the
index (identity) of the first Definition bearing exactly that final name. -/
def findDefinition (defs : List Definition) (definitionName : String) : Option Nat :=
  defs.findIdx? (fun d => decide (d.name = definitionName))

/-- The session state mutated during resolution: the session-wide definition
collection (`parsedWsdl.definitions`) and the visited-shape cache
(`visitedDefs`). -/
structure ParseState where
  definitions : List Definition
  visited : List VisitedDefinition
deriving DecidableEq, Repr

/-- Errors of the embedded resolver.  `collisionAt` is the wrapped
name-collision error thrown at source lines 71-75 (carrying that level's
`stack` and `name`); `subdefinitionFailure` is the replacement error created
by the catch blocks around recursive calls (lines 170-176 and 231-235);
`jsTypeError` models the JavaScript `TypeError` raised when a descriptor
string has no `|` separator (so `newParts[1]` is `undefined` and
`getType` dereferences it); `outOfFuel` is a modelling artifact marking
exhaustion of the explicit recursion fuel. -/
inductive ParseError where
  | outOfFuel
  | collisionAt (path : List String) (name : String)
  | subdefinitionFailure (path : List String) (name : String)
  | jsTypeError
deriving DecidableEq, Repr

/-- JavaScript `propName.substring(0, propName.length - 2)`: strip the
trailing `[]` array marker. -/
def stripArr (s : String) : String :=
  String.mk (s.data.dropLast.dropLast)

/-- The sub-definition name / source name for a nested raw value:
`type.typeName ?? fallbackName` in the source. -/
def subTypeName (heap : Heap) (cid : Nat) (fallback : String) : String :=
  (((heap.lookupNode cid).bind (fun n => n.typeName)).getD fallback)

/-- How a raw value prints inside a template literal (used for the
`@targetNSAlias` / `@targetNamespace` doc entries). -/
def rawValText : RawVal → String
  | .prim s => s
  | .complexType _ => "[object Object]"
  | .node _ => "[object Object]"

/-- Rewrite the definition at `defIdx`, appending the doc entries and
installing the properties accumulated during its construction call.  This
models the in-place mutation of the already-registered definition object;
its `name` and `sourceName` are untouched. -/
def finishDef (st : ParseState) (defIdx : Nat) (extraDocs : List String)
    (props : List Property) : ParseState :=
  match st.definitions.get? defIdx with
  | none => st
  | some d =>
    let d2 : Definition := { d with docs := d.docs ++ extraDocs, properties := props }
    { st with definitions := st.definitions.set defIdx d2 }

/-- One iteration of the `Object.entries(defParts).forEach` loop of
`parseDefinition` (source lines 110-239), parametrized by the recursive
call `pd` (already applied to the remaining fuel).  Returns the doc entries
and properties contributed by this entry together with the updated session
state.  A failure of `pd` other than the fuel artifact is replaced — as in
the source catch blocks — by a `subdefinitionFailure` carrying the *current*
level's `stack` and `name`. -/
def entryStep
    (pd : String → DefParts → List String → ParseState →
      Except ParseError (Nat × ParseState))
    (heap : Heap) (propName : String) (ty : RawVal) (name : String)
    (stack : List String) (st : ParseState) :
    Except ParseError (List String × List Property × ParseState) :=
  if propName = "targetNSAlias" then
    .ok (["@targetNSAlias `" ++ rawValText ty ++ "`"], [], st)
  else if propName = "typeName" then
    .ok ([], [], st)
  else if propName = "targetNamespace" then
    .ok (["@targetNamespace `" ++ rawValText ty ++ "`"], [], st)
  else if endsWithArr propName then
    match ty with
    | .prim s =>
      .ok ([], [Property.primitive (stripArr propName) propName s (getType s) true], st)
    | .complexType nm =>
      .ok ([], [Property.primitive (stripArr propName) propName
        (nm ++ " - ComplexType are not supported yet") "any" true], st)
    | .node cid =>
      match findReferenceDefiniton st.visited (.node cid) with
      | some visited =>
        .ok ([], [Property.reference (stripArr propName)
          (subTypeName heap cid (stripArr propName)) none visited.defIdx true], st)
      | none =>
        match pd (subTypeName heap cid (stripArr propName)) (.node cid)
            (stack ++ [propName]) st with
        | .error .outOfFuel => .error .outOfFuel
        | .error _ => .error (.subdefinitionFailure stack name)
        | .ok (subIdx, st1) =>
          .ok ([], [Property.reference (stripArr propName)
            (subTypeName heap cid (stripArr propName)) none subIdx true], st1)
  else
    match ty with
    | .prim s =>
      .ok ([], [Property.primitive propName propName s (getType s) false], st)
    | .complexType nm =>
      .ok ([], [Property.primitive propName propName
        (nm ++ " - ComplexType are not supported yet") "any" false], st)
    | .node cid =>
      match findReferenceDefiniton st.visited (.node cid) with
      | some reference =>
        .ok ([], [Property.reference propName (subTypeName heap cid propName)
          (some "") reference.defIdx false], st)
      | none =>
        match pd (subTypeName heap cid propName) (.node cid)
            (stack ++ [propName]) st with
        | .error .outOfFuel => .error .outOfFuel
        | .error _ => .error (.subdefinitionFailure stack name)
        | .ok (subIdx, st1) =>
          .ok ([], [Property.reference propName (subTypeName heap cid propName)
            none subIdx false], st1)

/-- The whole `Object.entries(defParts).forEach` loop, threading the session
state left to right and concatenating each entry's doc and property
contributions in order. -/
def processEntriesCore
    (pd : String → DefParts → List String → ParseState →
      Except ParseError (Nat × ParseState))
    (heap : Heap) :
    List (String × RawVal) → String → List String → ParseState →
    Except ParseError (List String × List Property × ParseState)
  | [], _, _, st => .ok ([], [], st)
  | e :: rest, name, stack, st =>
    match entryStep pd heap e.1 e.2 name stack st with
    | .error err => .error err
    | .ok (d1, p1, st1) =>
      match processEntriesCore pd heap rest name stack st1 with
      | .error err => .error err
      | .ok (d2, p2, st2) => .ok (d1 ++ d2, p1 ++ p2, st2)

/-- The definition record constructed at source lines 76-84: the final name
is the prefix, the PascalCased collision-free name and the suffix,
concatenated; properties start empty and are installed during the same
construction call. -/
def mkDefinition (opts : ParserOptions) (name nonCollisionDefName : String) :
    Definition :=
  { name := opts.modelNamePreffix ++ changeCase nonCollisionDefName true
      ++ opts.modelNameSuffix
    sourceName := name
    docs := [name]
    properties := []
    description := "" }

/-- Source lines 86-87: push the freshly constructed definition into the
session collection and into the visited-shape cache — before any recursion
into children. -/
def registerDef (opts : ParserOptions) (name nonCollisionDefName : String)
    (defParts : DefParts) (st : ParseState) : ParseState :=
  { definitions := st.definitions ++ [mkDefinition opts name nonCollisionDefName]
    visited := st.visited ++
      [⟨(mkDefinition opts name nonCollisionDefName).name, defParts.toVisited,
        st.definitions.length⟩] }

/-- `parseDefinition` from the source (lines 56-246), with explicit fuel.
The definition is registered in the session collection and in the
visited-shape cache *before* any recursion into its children. -/
def parseDefinition (cfg : SessionConfig) (heap : Heap) (opts : ParserOptions) :
    Nat → String → DefParts → List String → ParseState →
    Except ParseError (Nat × ParseState)
  | 0, _, _, _, _ => .error .outOfFuel
  | fuel + 1, name, defParts, stack, st =>
    match findNonCollisionDefinitionName cfg st.definitions (changeCase name true) with
    | none => .error (.collisionAt stack name)
    | some nonCollisionDefName =>
      match defParts with
      | .str s =>
        match splitOnChar '|' s with
        | p0 :: p1 :: _ =>
          .ok (st.definitions.length,
            finishDef (registerDef opts name nonCollisionDefName (.str s) st)
              st.definitions.length []
              [Property.primitive (mkDefinition opts name nonCollisionDefName).name
                p0 s (getType p1) false])
        | _ => .error .jsTypeError
      | .absent =>
        .ok (st.definitions.length, registerDef opts name nonCollisionDefName .absent st)
      | .node id =>
        match heap.lookupNode id with
        | none =>
          .ok (st.definitions.length, registerDef opts name nonCollisionDefName (.node id) st)
        | some raw =>
          if raw.undefQuirk then
            .ok (st.definitions.length, registerDef opts name nonCollisionDefName (.node id) st)
          else
            match processEntriesCore (parseDefinition cfg heap opts fuel) heap
                raw.entries name stack
                (registerDef opts name nonCollisionDefName (.node id) st) with
            | .error e => .error e
            | .ok (docs, props, st2) =>
              .ok (st.definitions.length, finishDef st2 st.definitions.length docs props)

/-- Modelled from the spec: `utils/javascript`'s `reservedKeywords` is not
among the provided sources; the spec says a camel-cased parameter name that
collides with a reserved identifier of the target language gets a fixed
suffix appended. -/
def reservedKeywords : List String :=
  ["break", "case", "catch", "class", "const", "continue", "debugger",
   "default", "delete", "do", "else", "enum", "export", "extends", "false",
   "finally", "for", "function", "if", "import", "in", "instanceof", "new",
   "null", "return", "super", "switch", "this", "throw", "true", "try",
   "typeof", "var", "void", "while", "with"]

/-- Rejoin dot-separated fragments. -/
def joinDots : List String → String
  | [] => ""
  | [s] => s
  | s :: r :: rest => s ++ "." ++ joinDots (r :: rest)

/-- Modelled from the spec: `utils/file`'s `stripExtension` is not among the
provided sources; it removes a final filename extension. -/
def stripExtension (f : String) : String :=
  match (splitOnChar '.' f).dropLast with
  | [] => f
  | p :: ps => joinDots (p :: ps)

/-- `path.basename`: the final path component. -/
def basename (p : String) : String :=
  (splitOnChar '/' p).getLastD ""

/-- The message `element` attribute: `{$name, $type?}`. -/
structure WsdlElement where
  elName : String
  elType : Option String
deriving DecidableEq, Repr

/-- One entry of `wsdl.definitions.messages`. -/
structure WsdlMessage where
  element : Option WsdlElement
  parts : DefParts
deriving DecidableEq, Repr

/-- One raw binding method: the `$name` of each declared message section
(`method.input.$name`, `method.inputSoap.header.$name`, `method.output.$name`,
`method.outputSoap.header.$name`, `method.fault.$name`), each independently
optional. -/
structure WsdlMethod where
  input : Option String
  inputHeader : Option String
  output : Option String
  outputHeader : Option String
  fault : Option String
deriving DecidableEq, Repr

structure WsdlPort where
  methods : List (String × WsdlMethod)
deriving DecidableEq, Repr

structure WsdlService where
  ports : List (String × WsdlPort)
deriving DecidableEq, Repr

/-- The raw decoded document consumed by the walker: named services and the
flat message table. -/
structure Wsdl where
  services : List (String × WsdlService)
  messages : List (String × WsdlMessage)
deriving DecidableEq, Repr

def lookupMessage (w : Wsdl) (n : String) : Option WsdlMessage :=
  (w.messages.find? (fun p => decide (p.1 = n))).map (fun p => p.2)

/-- The resolved `Method` record; definition relations are indices into the
session's definition collection, `none` for an absent definition. -/
structure Method where
  name : String
  paramName : String
  paramDefinition : Option Nat
  returnDefinition : Option Nat
  inputHeaderDefinition : Option Nat
  outputHeaderDefinition : Option Nat
  faultDefinition : Option Nat
deriving DecidableEq, Repr

structure Port where
  name : String
  sourceName : String
  methods : List Method
deriving DecidableEq, Repr

structure Service where
  name : String
  sourceName : String
  ports : List Port
deriving DecidableEq, Repr

/-- The session root produced by `parseWsdl`. -/
structure ParsedWsdl where
  name : String
  wsdlFilename : String
  wsdlPath : String
  definitions : List Definition
  ports : List Port
  services : List Service
deriving DecidableEq, Repr

/-- The element-present branch shared verbatim by all five message roles
(e.g. source lines 341-357): prefer the element's `$type` over its `$name`,
strip the namespace prefix, fall back to the element's `$name` when the
parts are a bare descriptor string, reuse a session definition with exactly
that name, otherwise resolve the parts. -/
def resolveElementRole (cfg : SessionConfig) (heap : Heap) (opts : ParserOptions)
    (fuel : Nat) (msg : WsdlMessage) (el : WsdlElement) (st : ParseState) :
    Except ParseError (Option Nat × ParseState) :=
  let typeName0 := el.elType.getD el.elName
  let typeName1 := (splitOnChar ':' typeName0).getLastD ""
  let typeName := if msg.parts.isStr then el.elName else typeName1
  match findDefinition st.definitions typeName with
  | some i => .ok (some i, st)
  | none =>
    match parseDefinition cfg heap opts fuel typeName msg.parts [typeName] st with
    | .error e => .error e
    | .ok (i, st1) => .ok (some i, st1)

/-- Reuse-or-resolve under a given name (the `findDefinition` +
`parseDefinition` pattern of the element-absent branches). -/
def resolveNamedParts (cfg : SessionConfig) (heap : Heap) (opts : ParserOptions)
    (fuel : Nat) (n : String) (parts : DefParts) (st : ParseState) :
    Except ParseError (Option Nat × ParseState) :=
  match findDefinition st.definitions n with
  | some i => .ok (some i, st)
  | none =>
    match parseDefinition cfg heap opts fuel n parts [n] st with
    | .error e => .error e
    | .ok (i, st1) => .ok (some i, st1)

/-- The soap-header handling shared by the input and output sections
(source lines 303-339 and 380-416): an absent header, or a header message
with neither element nor truthy parts, yields an absent definition. -/
def resolveHeaderRole (cfg : SessionConfig) (heap : Heap) (opts : ParserOptions)
    (w : Wsdl) (fuel : Nat) (hdr : Option String) (st : ParseState) :
    Except ParseError (Option Nat × ParseState) :=
  match hdr with
  | none => .ok (none, st)
  | some hn =>
    match lookupMessage w hn with
    | none => .error .jsTypeError
    | some hm =>
      match hm.element with
      | some el => resolveElementRole cfg heap opts fuel hm el st
      | none =>
        if hm.parts.truthy then resolveNamedParts cfg heap opts fuel hn hm.parts st
        else .ok (none, st)

/-- The input-body section (source lines 340-374): guarded by
`else if (inputMessage.parts)`, so messages with neither element nor truthy
parts yield an absent definition. -/
def resolveInputBody (cfg : SessionConfig) (heap : Heap) (opts : ParserOptions)
    (w : Wsdl) (fuel : Nat) (inName paramName : String) (st : ParseState) :
    Except ParseError (Option Nat × ParseState) :=
  match lookupMessage w inName with
  | none => .error .jsTypeError
  | some im =>
    match im.element with
    | some el => resolveElementRole cfg heap opts fuel im el st
    | none =>
      if im.parts.truthy then resolveNamedParts cfg heap opts fuel paramName im.parts st
      else .ok (none, st)

/-- The output-body section (source lines 417-447): unlike every other role
its element-absent branch has *no* parts guard — `parseDefinition` is always
invoked with the message's (possibly absent) parts. -/
def resolveOutputBody (cfg : SessionConfig) (heap : Heap) (opts : ParserOptions)
    (w : Wsdl) (fuel : Nat) (outName : String) (st : ParseState) :
    Except ParseError (Option Nat × ParseState) :=
  match lookupMessage w outName with
  | none => .error .jsTypeError
  | some om =>
    match om.element with
    | some el => resolveElementRole cfg heap opts fuel om el st
    | none => resolveNamedParts cfg heap opts fuel outName om.parts st

/-- The fault section (source lines 450-487), guarded like the input body. -/
def resolveFaultRole (cfg : SessionConfig) (heap : Heap) (opts : ParserOptions)
    (w : Wsdl) (fuel : Nat) (fName : String) (st : ParseState) :
    Except ParseError (Option Nat × ParseState) :=
  match lookupMessage w fName with
  | none => .error .jsTypeError
  | some fm =>
    match fm.element with
    | some el => resolveElementRole cfg heap opts fuel fm el st
    | none =>
      if fm.parts.truthy then resolveNamedParts cfg heap opts fuel fName fm.parts st
      else .ok (none, st)

/-- Run a role resolver when the section is declared; an undeclared section
yields an absent definition without touching the state. -/
def runRole (inp : Option String)
    (f : String → ParseState → Except ParseError (Option Nat × ParseState))
    (st : ParseState) : Except ParseError (Option Nat × ParseState) :=
  match inp with
  | none => .ok (none, st)
  | some x => f x st

/-- The default-`"request"` parameter-name rule (source lines 296-302). -/
def methodParamName (m : WsdlMethod) : String :=
  match m.input with
  | some inName => if inName = "" then "request" else inName
  | none => "request"

/-- Resolution of one binding method (source lines 292-503): up to five
message roles resolved in source order (input header, input body, output
header, output body, fault), then the parameter-name policy. -/
def processMethod (cfg : SessionConfig) (heap : Heap) (opts : ParserOptions)
    (w : Wsdl) (fuel : Nat) (methodName : String) (m : WsdlMethod)
    (st0 : ParseState) : Except ParseError (Method × ParseState) :=
  match runRole m.input
      (fun _ s => resolveHeaderRole cfg heap opts w fuel m.inputHeader s) st0 with
  | .error e => .error e
  | .ok (inputHeaderDefinition, st1) =>
    match runRole m.input
        (fun inName s =>
          resolveInputBody cfg heap opts w fuel inName (methodParamName m) s) st1 with
    | .error e => .error e
    | .ok (paramDefinition, st2) =>
      match runRole m.output
          (fun _ s => resolveHeaderRole cfg heap opts w fuel m.outputHeader s) st2 with
      | .error e => .error e
      | .ok (outputHeaderDefinition, st3) =>
        match runRole m.output
            (fun outName s => resolveOutputBody cfg heap opts w fuel outName s) st3 with
        | .error e => .error e
        | .ok (returnDefinition, st4) =>
          match runRole m.fault
              (fun fName s => resolveFaultRole cfg heap opts w fuel fName s) st4 with
          | .error e => .error e
          | .ok (faultDefinition, st5) =>
            .ok ({ name := methodName
                   paramName :=
                     if reservedKeywords.any
                         (fun k => decide (k = changeCase (methodParamName m) false))
                     then changeCase (methodParamName m) false ++ "Param"
                     else changeCase (methodParamName m) false
                   paramDefinition := paramDefinition
                   returnDefinition := returnDefinition
                   inputHeaderDefinition := inputHeaderDefinition
                   outputHeaderDefinition := outputHeaderDefinition
                   faultDefinition := faultDefinition }, st5)

def processMethods (cfg : SessionConfig) (heap : Heap) (opts : ParserOptions)
    (w : Wsdl) (fuel : Nat) :
    List (String × WsdlMethod) → ParseState →
    Except ParseError (List Method × ParseState)
  | [], st => .ok ([], st)
  | (mn, m) :: rest, st =>
    match processMethod cfg heap opts w fuel mn m st with
    | .error e => .error e
    | .ok (meth, st1) =>
      match processMethods cfg heap opts w fuel rest st1 with
      | .error e => .error e
      | .ok (ms, st2) => .ok (meth :: ms, st2)

def processPorts (cfg : SessionConfig) (heap : Heap) (opts : ParserOptions)
    (w : Wsdl) (fuel : Nat) :
    List (String × WsdlPort) → ParseState →
    Except ParseError (List Port × ParseState)
  | [], st => .ok ([], st)
  | (pn, p) :: rest, st =>
    match processMethods cfg heap opts w fuel p.methods st with
    | .error e => .error e
    | .ok (ms, st1) =>
      match processPorts cfg heap opts w fuel rest st1 with
      | .error e => .error e
      | .ok (ps, st2) =>
        .ok ({ name := changeCase pn true, sourceName := pn, methods := ms } :: ps, st2)

def processServices (cfg : SessionConfig) (heap : Heap) (opts : ParserOptions)
    (w : Wsdl) (fuel : Nat) :
    List (String × WsdlService) → ParseState →
    Except ParseError (List Service × List Port × ParseState)
  | [], st => .ok ([], [], st)
  | (sn, s) :: rest, st =>
    match processPorts cfg heap opts w fuel s.ports st with
    | .error e => .error e
    | .ok (ps, st1) =>
      match processServices cfg heap opts w fuel rest st1 with
      | .error e => .error e
      | .ok (ss, flat, st2) =>
        .ok ({ name := changeCase sn true, sourceName := sn, ports := ps } :: ss,
          ps ++ flat, st2)

/-- The partial options accepted by `parseWsdl` (`Partial<ParserOptions>`). -/
structure PartialParserOptions where
  modelNamePreffix : Option String
  modelNameSuffix : Option String
  maxRecursiveDefinitionName : Option Nat
deriving DecidableEq, Repr

/-- The `{...defaultOptions, ...options}` spread merge. -/
def mergeOptions (p : PartialParserOptions) : ParserOptions :=
  { modelNamePreffix := p.modelNamePreffix.getD defaultOptions.modelNamePreffix
    modelNameSuffix := p.modelNameSuffix.getD defaultOptions.modelNameSuffix
    maxRecursiveDefinitionName :=
      p.maxRecursiveDefinitionName.getD defaultOptions.maxRecursiveDefinitionName }

/-- `parseWsdl` from the source (lines 254-528).  The decoded document and
the raw-node heap stand for what `open_wsdl` delivers to the callback;
`path.resolve` is modelled as the identity on the given path, and
`caseInsensitive` is the spec's `caseInsensitiveNameComparison` registry
configuration (the registry object itself is modelled from the spec).  The
session registry is built with `options.maxRecursiveDefinitionName` — the
*unmerged* partial options, as in source line 271 — defaulted to the spec's
64. -/
def parseWsdl (wsdlPath : String) (options : PartialParserOptions)
    (caseInsensitive : Bool) (heap : Heap) (w : Wsdl) (fuel : Nat) :
    Except ParseError ParsedWsdl :=
  let mergedOptions := mergeOptions options
  let cfg : SessionConfig :=
    { maxStack := options.maxRecursiveDefinitionName.getD 64
      caseInsensitive := caseInsensitive }
  let filename := basename wsdlPath
  match processServices cfg heap mergedOptions w fuel w.services ⟨[], []⟩ with
  | .error e => .error e
  | .ok (services, allPorts, st) =>
    .ok { name := changeCase (stripExtension filename) true
          wsdlFilename := basename filename
          wsdlPath := wsdlPath
          definitions := st.definitions
          ports := allPorts
          services := services }

/-- `ModelPropertyNaming` consumed by the generator. -/
inductive ModelPropertyNaming where
  | camelCase
  | pascalCase
deriving DecidableEq, Repr

/-- `GeneratorOptions` from `src/generator.ts` (lines 15-18). -/
structure GeneratorOptions where
  emitDefinitionsOnly : Bool
  modelPropertyNaming : Option ModelPropertyNaming
deriving DecidableEq, Repr

/-- The generator's `defaultOptions` (`generator.ts` lines 20-23; the
`modelPropertyNaming: null` default). -/
def generatorDefaultOptions : GeneratorOptions :=
  { emitDefinitionsOnly := false
    modelPropertyNaming := none }

/-- The in-place `prop.name` rewrite of `generateDefinitionFile`
(`generator.ts` lines 87-96); the external `camelcase` package is modelled
by `changeCase`. -/
def renameProp (naming : Option ModelPropertyNaming) (p : Property) : Property :=
  match naming with
  | none => p
  | some .camelCase =>
    match p with
    | .primitive n sn d t a => .primitive (changeCase n false) sn d t a
    | .reference n sn d r a => .reference (changeCase n false) sn d r a
  | some .pascalCase =>
    match p with
    | .primitive n sn d t a => .primitive (changeCase n true) sn d t a
    | .reference n sn d r a => .reference (changeCase n true) sn d r a

/-- Overwrite property `i` of definition `defIdx`. -/
def setPropAt (defs : List Definition) (defIdx i : Nat) (p : Property) :
    List Definition :=
  match defs.get? defIdx with
  | none => defs
  | some d => defs.set defIdx { d with properties := d.properties.set i p }

/-- The property loop of `generateDefinitionFile` (`generator.ts` lines
86-112) restricted to its effect on the session data: each property is
renamed in place per `modelPropertyNaming`, and a REFERENCE whose target was
not generated yet triggers a recursive generation (`gdf`).  File emission
itself is I/O and outside the session data. -/
def genPropsCore
    (gdf : Nat → List Definition × List Nat → List Definition × List Nat)
    (naming : Option ModelPropertyNaming) (defIdx : Nat) :
    List (Nat × Property) → List Definition × List Nat →
    List Definition × List Nat
  | [], s => s
  | (i, p) :: rest, (defs, generated) =>
    let p1 := renameProp naming p
    let defs1 := setPropAt defs defIdx i p1
    let s1 :=
      match p1 with
      | .reference _ _ _ r _ =>
        if generated.contains r then (defs1, generated) else gdf r (defs1, generated)
      | .primitive _ _ _ _ _ => (defs1, generated)
    genPropsCore gdf naming defIdx rest s1

/-- `generateDefinitionFile` (`generator.ts` lines 68-134) as a transformer
of the session data `(definitions, generated)`: the definition is marked
generated first, then its properties are renamed and unvisited reference
targets generated recursively. -/
def generateDefinitionFile (options : GeneratorOptions) :
    Nat → Nat → List Definition × List Nat → List Definition × List Nat
  | 0, _, s => s
  | fuel + 1, defIdx, (defs, generated) =>
    let generated1 := generated ++ [defIdx]
    match defs.get? defIdx with
    | none => (defs, generated1)
    | some d =>
      genPropsCore (generateDefinitionFile options fuel)
        options.modelPropertyNaming defIdx d.properties.enum (defs, generated1)

/-! ### Name-stylization lemmas -/

theorem upChar_upChar (c : Char) : upChar (upChar c) = upChar c := by
  unfold upChar
  cases h : upPairs.find? (fun p => decide (p.1 = c)) with
  | none => simp [h]
  | some pr =>
    have hmem : pr ∈ upPairs := List.mem_of_find?_eq_some h
    have hall : ∀ p ∈ upPairs, upPairs.find? (fun q => decide (q.1 = p.2)) = none := by decide
    simp [h, hall pr hmem]

theorem upChar_of_digit (c : Char) (h : c.isDigit = true) : upChar c = c := by
  unfold upChar
  have : upPairs.find? (fun p => decide (p.1 = c)) = none := by
    rw [List.find?_eq_none]
    intro p hp hpc
    have hkey : ∀ q ∈ upPairs, q.1.isDigit = false := by decide
    have := hkey p hp
    rw [decide_eq_true_eq] at hpc
    rw [hpc, h] at this
    exact absurd this (by simp)
  simp [this]

theorem string_eq_of_data {s t : String} (h : s.data = t.data) : s = t := by
  cases s; cases t
  exact congrArg String.mk h

theorem data_changeCase_pascal (c : Char) (cs : List Char) (s : String)
    (h : s.data = c :: cs) : changeCase s true = String.mk (upChar c :: cs) := by
  unfold changeCase
  rw [h]
  rfl

theorem changeCase_pascal_nil (s : String) (h : s.data = []) :
    changeCase s true = "" := by
  unfold changeCase
  rw [h]

theorem changeCase_pascal_idem (s : String) :
    changeCase (changeCase s true) true = changeCase s true := by
  cases hs : s.data with
  | nil => rw [changeCase_pascal_nil s hs]; rfl
  | cons c cs =>
    rw [data_changeCase_pascal c cs s hs,
      data_changeCase_pascal (upChar c) cs (String.mk (upChar c :: cs)) rfl,
      upChar_upChar]

theorem changeCase_fixed_of_digits (t : String)
    (h : ∀ c ∈ t.data, c.isDigit = true) : changeCase t true = t := by
  cases ht : t.data with
  | nil =>
    have h0 : t = "" := string_eq_of_data (by rw [ht])
    rw [h0]; rfl
  | cons c cs =>
    rw [data_changeCase_pascal c cs t ht,
      upChar_of_digit c (h c (by rw [ht]; exact List.mem_cons_self c cs))]
    exact string_eq_of_data (by rw [ht])

theorem changeCase_pascal_append_digits (s t : String)
    (h : ∀ c ∈ t.data, c.isDigit = true) :
    changeCase (changeCase s true ++ t) true = changeCase s true ++ t := by
  have hdata : (changeCase s true ++ t).data = (changeCase s true).data ++ t.data :=
    String.data_append _ _
  cases hs : s.data with
  | nil =>
    have h0 : changeCase s true = "" := changeCase_pascal_nil s hs
    have ht : changeCase s true ++ t = t := by
      apply string_eq_of_data
      rw [hdata, h0]
      rfl
    rw [ht]
    exact changeCase_fixed_of_digits t h
  | cons c cs =>
    have h1 : changeCase s true = String.mk (upChar c :: cs) :=
      data_changeCase_pascal c cs s hs
    have h2 : (changeCase s true ++ t).data = upChar c :: (cs ++ t.data) := by
      rw [hdata, h1]
      rfl
    rw [data_changeCase_pascal _ _ _ h2, upChar_upChar]
    apply string_eq_of_data
    rw [hdata, h1]
    rfl

theorem digitChar_mod10_isDigit (n : Nat) :
    (Nat.digitChar (n % 10)).isDigit = true := by
  have h : n % 10 < 10 := Nat.mod_lt _ (by norm_num)
  set m := n % 10 with hm
  interval_cases m <;> decide

theorem toDigitsCore_digits (fuel : Nat) : ∀ (n : Nat) (acc : List Char),
    (∀ c ∈ acc, c.isDigit = true) →
    ∀ c ∈ Nat.toDigitsCore 10 fuel n acc, c.isDigit = true := by
  induction fuel with
  | zero =>
    intro n acc hacc c hc
    exact hacc c (by simpa [Nat.toDigitsCore] using hc)
  | succ f ih =>
    intro n acc hacc c hc
    rw [Nat.toDigitsCore] at hc
    by_cases h0 : n / 10 = 0
    · simp only [h0, if_pos] at hc
      rcases List.mem_cons.mp (by simpa using hc) with hc1 | hc1
      · rw [hc1]; exact digitChar_mod10_isDigit n
      · exact hacc c hc1
    · simp only [h0, if_neg, if_false] at hc
      refine ih (n / 10) (Nat.digitChar (n % 10) :: acc) ?_ c (by simpa using hc)
      intro x hx
      rcases List.mem_cons.mp hx with hx1 | hx1
      · rw [hx1]; exact digitChar_mod10_isDigit n
      · exact hacc x hx1

theorem toString_nat_digits (n : Nat) :
    ∀ c ∈ (toString n).data, c.isDigit = true := by
  intro c hc
  exact toDigitsCore_digits (n + 1) n [] (by intro x hx; cases hx) c hc

/-! ### Registry lemmas -/

theorem findNonCollision_shape (cfg : SessionConfig) (defs : List Definition)
    (defName cand : String)
    (h : findNonCollisionDefinitionName cfg defs defName = some cand) :
    cand = defName ∨ ∃ k : Nat, cand = defName ++ toString (k + 2) := by
  unfold findNonCollisionDefinitionName at h
  by_cases h1 : nameTaken cfg defs defName
  · rw [if_pos h1] at h
    obtain ⟨k, _, hf⟩ := List.exists_of_findSome?_eq_some h
    by_cases h2 : nameTaken cfg defs (defName ++ toString (k + 2))
    · simp [h2] at hf
    · simp [h2] at hf
      exact Or.inr ⟨k, hf.symm⟩
  · rw [if_neg h1] at h
    injection h with h2
    exact Or.inl h2.symm

theorem findNonCollision_fresh (cfg : SessionConfig) (defs : List Definition)
    (defName cand : String)
    (h : findNonCollisionDefinitionName cfg defs defName = some cand) :
    nameTaken cfg defs cand = false := by
  unfold findNonCollisionDefinitionName at h
  by_cases h1 : nameTaken cfg defs defName
  · rw [if_pos h1] at h
    obtain ⟨k, _, hf⟩ := List.exists_of_findSome?_eq_some h
    by_cases h2 : nameTaken cfg defs (defName ++ toString (k + 2))
    · simp [h2] at hf
    · simp [h2] at hf
      rw [← hf]
      exact Bool.eq_false_iff.mpr h2
  · rw [if_neg h1] at h
    injection h with h2
    rw [← h2]
    exact Bool.eq_false_iff.mpr h1

theorem findNonCollision_pascal_fixed (cfg : SessionConfig)
    (defs : List Definition) (name cand : String)
    (h : findNonCollisionDefinitionName cfg defs (changeCase name true) = some cand) :
    changeCase cand true = cand := by
  rcases findNonCollision_shape cfg defs _ _ h with h1 | ⟨k, h1⟩
  · rw [h1]; exact changeCase_pascal_idem name
  · rw [h1]; exact changeCase_pascal_append_digits name _ (toString_nat_digits (k + 2))

theorem nameTaken_false_ne (cfg : SessionConfig) (defs : List Definition)
    (cand : String) (h : nameTaken cfg defs cand = false) :
    ∀ d ∈ defs, d.name ≠ cand := by
  intro d hd heq
  have hp : (if cfg.caseInsensitive then decide (asciiLower d.name = asciiLower cand)
      else decide (d.name = cand)) = true := by
    cases cfg.caseInsensitive <;> simp [heq]
  have h2 : nameTaken cfg defs cand = true := by
    unfold nameTaken
    exact List.any_eq_true.mpr ⟨d, hd, hp⟩
  rw [h] at h2
  exact absurd h2 (by simp)

/-! ### Session-state evolution -/

/-- The final names of the session's definition collection, in creation
order. -/
def defNames (defs : List Definition) : List String :=
  defs.map (fun d => d.name)

/-- No two definitions of the collection share a final name. -/
def UniqNames (defs : List Definition) : Prop :=
  (defNames defs).Pairwise (fun a b => a ≠ b)

/-- What one resolution step does to the session state: the definition
collection and the visited cache only grow (existing entries — in
particular every existing definition object up to the entry length — are
untouched), and with empty name prefix and suffix name-uniqueness is
preserved. -/
def StateEvolves (opts : ParserOptions) (st st' : ParseState) : Prop :=
  st.definitions <+: st'.definitions ∧ st.visited <+: st'.visited ∧
  (opts.modelNamePreffix = "" → opts.modelNameSuffix = "" →
    UniqNames st.definitions → UniqNames st'.definitions)

theorem stateEvolves_refl (opts : ParserOptions) (st : ParseState) :
    StateEvolves opts st st :=
  ⟨List.prefix_refl _, List.prefix_refl _, fun _ _ h => h⟩

theorem stateEvolves_trans {opts : ParserOptions} {s1 s2 s3 : ParseState}
    (h1 : StateEvolves opts s1 s2) (h2 : StateEvolves opts s2 s3) :
    StateEvolves opts s1 s3 :=
  ⟨h1.1.trans h2.1, h1.2.1.trans h2.2.1,
   fun hp hs hu => h2.2.2 hp hs (h1.2.2 hp hs hu)⟩

theorem list_take_set {α : Type} (l : List α) (i : Nat) (a : α) (k : Nat)
    (h : k ≤ i) : (l.set i a).take k = l.take k := by
  induction l generalizing i k with
  | nil => simp
  | cons x t ih =>
    cases i with
    | zero => interval_cases k; simp
    | succ j =>
      cases k with
      | zero => simp
      | succ m => simp [List.set, List.take, ih j m (Nat.le_of_succ_le_succ h)]

theorem prefix_set_of_le {α : Type} {l1 l2 : List α} (i : Nat) (a : α)
    (h : l1 <+: l2) (hi : l1.length ≤ i) : l1 <+: l2.set i a := by
  rw [List.prefix_iff_eq_take] at h ⊢
  rw [list_take_set l2 i a _ hi]
  exact h

theorem list_set_self {α : Type} : ∀ (l : List α) (i : Nat) (v : α),
    l.get? i = some v → l.set i v = l := by
  intro l
  induction l with
  | nil => intro i v h; simp at h
  | cons x t ih =>
    intro i v h
    cases i with
    | zero =>
      simp only [List.get?] at h
      injection h with h
      rw [List.set, h]
    | succ j =>
      simp only [List.get?] at h
      rw [List.set, ih j v h]

theorem finishDef_visited (st : ParseState) (i : Nat) (ds : List String)
    (ps : List Property) : (finishDef st i ds ps).visited = st.visited := by
  unfold finishDef
  cases st.definitions.get? i <;> rfl

theorem finishDef_defNames (st : ParseState) (i : Nat) (ds : List String)
    (ps : List Property) :
    defNames (finishDef st i ds ps).definitions = defNames st.definitions := by
  unfold finishDef
  cases h : st.definitions.get? i with
  | none => rfl
  | some d =>
    show defNames (st.definitions.set i _) = _
    unfold defNames
    rw [List.map_set]
    apply list_set_self
    rw [List.get?_map, h]
    rfl


theorem finishDef_defs_extend {pre : List Definition} (st : ParseState)
    (i : Nat) (ds : List String) (ps : List Property)
    (h : pre <+: st.definitions) (hi : pre.length ≤ i) :
    pre <+: (finishDef st i ds ps).definitions := by
  unfold finishDef
  cases st.definitions.get? i with
  | none => exact h
  | some d => exact prefix_set_of_le i _ h hi

theorem uniqNames_append_fresh (defs : List Definition) (d : Definition)
    (hU : UniqNames defs) (hfresh : ∀ e ∈ defs, e.name ≠ d.name) :
    UniqNames (defs ++ [d]) := by
  unfold UniqNames defNames at *
  rw [List.map_append, List.pairwise_append]
  refine ⟨hU, by simp, ?_⟩
  intro a ha b hb
  simp only [List.map_cons, List.map_nil, List.mem_singleton] at hb
  obtain ⟨e, he, rfl⟩ := List.mem_map.mp ha
  rw [hb]
  exact hfresh e he

theorem uniqNames_of_eq {defs1 defs2 : List Definition}
    (h : defNames defs1 = defNames defs2) (hU : UniqNames defs1) :
    UniqNames defs2 := by
  unfold UniqNames at *
  rw [← h]
  exact hU

theorem string_empty_append (x : String) : "" ++ x = x := by
  apply string_eq_of_data
  rw [String.data_append]
  rfl

theorem string_append_empty (x : String) : x ++ "" = x := by
  apply string_eq_of_data
  rw [String.data_append]
  simp

theorem mkDefinition_name (opts : ParserOptions) (name cand : String) :
    (mkDefinition opts name cand).name =
      opts.modelNamePreffix ++ changeCase cand true ++ opts.modelNameSuffix := rfl

theorem push_evolves (opts : ParserOptions) (cfg : SessionConfig)
    (st : ParseState) (name cand : String) (dp : DefParts)
    (hreg : findNonCollisionDefinitionName cfg st.definitions (changeCase name true) = some cand) :
    StateEvolves opts st (registerDef opts name cand dp st) := by
  refine ⟨List.prefix_append _ _, List.prefix_append _ _, ?_⟩
  intro hp hs hu
  apply uniqNames_append_fresh _ _ hu
  intro e he
  have hd : (mkDefinition opts name cand).name = cand := by
    rw [mkDefinition_name, hp, hs, string_empty_append, string_append_empty,
      findNonCollision_pascal_fixed cfg st.definitions name cand hreg]
  rw [hd]
  exact nameTaken_false_ne cfg st.definitions cand
    (findNonCollision_fresh cfg st.definitions _ cand hreg) e he

theorem evolves_finish (opts : ParserOptions) {st st2 : ParseState}
    (i : Nat) (ds : List String) (ps : List Property)
    (h : StateEvolves opts st st2) (hi : st.definitions.length ≤ i) :
    StateEvolves opts st (finishDef st2 i ds ps) := by
  refine ⟨finishDef_defs_extend st2 i ds ps h.1 hi, ?_, ?_⟩
  · rw [finishDef_visited]
    exact h.2.1
  · intro hp hs hu
    exact uniqNames_of_eq (finishDef_defNames st2 i ds ps).symm (h.2.2 hp hs hu)

theorem entryStep_rel
    (pd : String → DefParts → List String → ParseState →
      Except ParseError (Nat × ParseState))
    (R : ParseState → ParseState → Prop) (heap : Heap)
    (hR : ∀ s, R s s)
    (Hpd : ∀ name dp stack st i st',
      pd name dp stack st = .ok (i, st') → R st st')
    (propName : String) (ty : RawVal) (name : String) (stack : List String)
    (st : ParseState) (ds : List String) (ps : List Property) (st' : ParseState)
    (h : entryStep pd heap propName ty name stack st = .ok (ds, ps, st')) :
    R st st' := by
  unfold entryStep at h
  by_cases h1 : propName = "targetNSAlias"
  · simp only [h1, if_pos, if_true, Except.ok.injEq, Prod.mk.injEq] at h
    rw [← h.2.2]
    exact hR st
  · rw [if_neg h1] at h
    by_cases h2 : propName = "typeName"
    · simp only [h2, if_pos, if_true, Except.ok.injEq, Prod.mk.injEq] at h
      rw [← h.2.2]
      exact hR st
    · rw [if_neg h2] at h
      by_cases h3 : propName = "targetNamespace"
      · simp only [h3, if_pos, if_true, Except.ok.injEq, Prod.mk.injEq] at h
        rw [← h.2.2]
        exact hR st
      · rw [if_neg h3] at h
        by_cases h4 : endsWithArr propName = true
        · rw [if_pos h4] at h
          cases ty with
          | prim s =>
            simp only [Except.ok.injEq, Prod.mk.injEq] at h
            rw [← h.2.2]
            exact hR st
          | complexType nm =>
            simp only [Except.ok.injEq, Prod.mk.injEq] at h
            rw [← h.2.2]
            exact hR st
          | node cid =>
            cases hf : findReferenceDefiniton st.visited (.node cid) with
            | some v =>
              simp only [hf, Except.ok.injEq, Prod.mk.injEq] at h
              rw [← h.2.2]
              exact hR st
            | none =>
              simp only [hf] at h
              cases hpd : pd (subTypeName heap cid (stripArr propName)) (.node cid)
                  (stack ++ [propName]) st with
              | error e => cases e <;> simp [hpd] at h
              | ok pr =>
                obtain ⟨subIdx, st1⟩ := pr
                simp only [hpd, Except.ok.injEq, Prod.mk.injEq] at h
                rw [← h.2.2]
                exact Hpd _ _ _ _ _ _ hpd
        · rw [if_neg h4] at h
          cases ty with
          | prim s =>
            simp only [Except.ok.injEq, Prod.mk.injEq] at h
            rw [← h.2.2]
            exact hR st
          | complexType nm =>
            simp only [Except.ok.injEq, Prod.mk.injEq] at h
            rw [← h.2.2]
            exact hR st
          | node cid =>
            cases hf : findReferenceDefiniton st.visited (.node cid) with
            | some v =>
              simp only [hf, Except.ok.injEq, Prod.mk.injEq] at h
              rw [← h.2.2]
              exact hR st
            | none =>
              simp only [hf] at h
              cases hpd : pd (subTypeName heap cid propName) (.node cid)
                  (stack ++ [propName]) st with
              | error e => cases e <;> simp [hpd] at h
              | ok pr =>
                obtain ⟨subIdx, st1⟩ := pr
                simp only [hpd, Except.ok.injEq, Prod.mk.injEq] at h
                rw [← h.2.2]
                exact Hpd _ _ _ _ _ _ hpd

theorem processEntriesCore_rel
    (pd : String → DefParts → List String → ParseState →
      Except ParseError (Nat × ParseState))
    (R : ParseState → ParseState → Prop) (heap : Heap)
    (hR : ∀ s, R s s)
    (hRt : ∀ {s1 s2 s3}, R s1 s2 → R s2 s3 → R s1 s3)
    (Hpd : ∀ name dp stack st i st',
      pd name dp stack st = .ok (i, st') → R st st') :
    ∀ (entries : List (String × RawVal)) (name : String) (stack : List String)
      (st : ParseState) (ds : List String) (ps : List Property) (st' : ParseState),
      processEntriesCore pd heap entries name stack st = .ok (ds, ps, st') →
      R st st' := by
  intro entries
  induction entries with
  | nil =>
    intro name stack st ds ps st' h
    unfold processEntriesCore at h
    simp only [Except.ok.injEq, Prod.mk.injEq] at h
    rw [← h.2.2]
    exact hR st
  | cons e rest ih =>
    intro name stack st ds ps st' h
    unfold processEntriesCore at h
    cases hstep : entryStep pd heap e.1 e.2 name stack st with
    | error err => simp [hstep] at h
    | ok trip =>
      obtain ⟨d1, p1, st1⟩ := trip
      simp only [hstep] at h
      cases hrest : processEntriesCore pd heap rest name stack st1 with
      | error err => simp [hrest] at h
      | ok trip2 =>
        obtain ⟨d2, p2, st2⟩ := trip2
        simp only [hrest, Except.ok.injEq, Prod.mk.injEq] at h
        rw [← h.2.2]
        exact hRt
          (entryStep_rel pd R heap hR Hpd e.1 e.2 name stack st d1 p1 st1 hstep)
          (ih name stack st1 d2 p2 st2 hrest)

theorem parseDefinition_evolves (cfg : SessionConfig) (heap : Heap)
    (opts : ParserOptions) :
    ∀ (fuel : Nat) (name : String) (defParts : DefParts) (stack : List String)
      (st : ParseState) (i : Nat) (st' : ParseState),
      parseDefinition cfg heap opts fuel name defParts stack st = .ok (i, st') →
      StateEvolves opts st st' := by
  intro fuel
  induction fuel with
  | zero =>
    intro name defParts stack st i st' h
    exact absurd h (by simp [parseDefinition])
  | succ f ih =>
    intro name defParts stack st i st' h
    unfold parseDefinition at h
    cases hreg : findNonCollisionDefinitionName cfg st.definitions (changeCase name true) with
    | none => simp [hreg] at h
    | some cand =>
      simp only [hreg] at h
      cases defParts with
      | str s =>
        cases hsplit : splitOnChar '|' s with
        | nil => simp [hsplit] at h
        | cons p0 prest =>
          cases prest with
          | nil => simp [hsplit] at h
          | cons p1 prest2 =>
            simp only [hsplit, Except.ok.injEq, Prod.mk.injEq] at h
            rw [← h.2]
            exact evolves_finish opts _ _ _
              (push_evolves opts cfg st name cand _ hreg) (Nat.le_refl _)
      | absent =>
        simp only [Except.ok.injEq, Prod.mk.injEq] at h
        rw [← h.2]
        exact push_evolves opts cfg st name cand _ hreg
      | node id =>
        cases hlook : heap.lookupNode id with
        | none =>
          simp only [hlook, Except.ok.injEq, Prod.mk.injEq] at h
          rw [← h.2]
          exact push_evolves opts cfg st name cand _ hreg
        | some raw =>
          simp only [hlook] at h
          by_cases hq : raw.undefQuirk = true
          · rw [if_pos hq] at h
            simp only [Except.ok.injEq, Prod.mk.injEq] at h
            rw [← h.2]
            exact push_evolves opts cfg st name cand _ hreg
          · rw [if_neg hq] at h
            cases hpec : processEntriesCore (parseDefinition cfg heap opts f) heap
                raw.entries name stack (registerDef opts name cand (.node id) st) with
            | error e => simp [hpec] at h
            | ok trip =>
              obtain ⟨docs2, props2, st2⟩ := trip
              simp only [hpec, Except.ok.injEq, Prod.mk.injEq] at h
              rw [← h.2]
              refine evolves_finish opts _ docs2 props2 ?_ (Nat.le_refl _)
              exact stateEvolves_trans
                (push_evolves opts cfg st name cand _ hreg)
                (processEntriesCore_rel _ (StateEvolves opts) heap
                  (stateEvolves_refl opts) (fun a b => stateEvolves_trans a b)
                  (fun n dp sk s2 j s3 hx => ih n dp sk s2 j s3 hx)
                  raw.entries name stack _ docs2 props2 st2 hpec)

/-! ### Fuel sufficiency (termination of the recursion) -/

/-- The identities of all raw nodes in the heap. -/
def heapIds (heap : Heap) : Finset Nat :=
  (heap.map (fun p => p.1)).toFinset

/-- The identities of all raw nodes remembered by the visited-shape cache. -/
def visitedIds (st : ParseState) : Finset Nat :=
  (st.visited.filterMap (fun v =>
    match v.parts with
    | .node i => some i
    | _ => none)).toFinset

/-- Fuel sufficient for one `parseDefinition` call: one unit for the call
itself, plus — when the parts are an unvisited heap node — one unit per
heap node not yet visited. -/
def fuelNeed (heap : Heap) (defParts : DefParts) (st : ParseState) : Nat :=
  match defParts with
  | .node id =>
    if id ∈ heapIds heap then 2 + (heapIds heap \ (visitedIds st ∪ {id})).card
    else 1
  | _ => 1

theorem fuelNeed_pos (heap : Heap) (defParts : DefParts) (st : ParseState) :
    1 ≤ fuelNeed heap defParts st := by
  cases defParts with
  | node id =>
    simp only [fuelNeed]
    by_cases h : id ∈ heapIds heap
    · rw [if_pos h]; omega
    · rw [if_neg h]
  | str s => exact Nat.le_refl 1
  | absent => exact Nat.le_refl 1

theorem visitedIds_mono {st st' : ParseState} (h : st.visited <+: st'.visited) :
    visitedIds st ⊆ visitedIds st' := by
  obtain ⟨t, ht⟩ := h
  unfold visitedIds
  rw [← ht, List.filterMap_append, List.toFinset_append]
  exact Finset.subset_union_left

theorem visitedIds_registerDef_node (opts : ParserOptions)
    (name cand : String) (id : Nat) (st : ParseState) :
    visitedIds (registerDef opts name cand (.node id) st) = visitedIds st ∪ {id} := by
  unfold visitedIds registerDef
  rw [List.filterMap_append, List.toFinset_append]
  congr 1

theorem lookupNode_mem (heap : Heap) (id : Nat) (raw : RawNode)
    (h : heap.lookupNode id = some raw) : id ∈ heapIds heap := by
  unfold Heap.lookupNode at h
  cases hf : heap.find? (fun p => decide (p.1 = id)) with
  | none => rw [hf] at h; cases h
  | some p =>
    have hmem := List.mem_of_find?_eq_some hf
    have hp := List.find?_some hf
    rw [decide_eq_true_eq] at hp
    unfold heapIds
    rw [List.mem_toFinset]
    exact List.mem_map.mpr ⟨p, hmem, hp⟩

theorem findRef_none_not_mem (st : ParseState) (cid : Nat)
    (h : findReferenceDefiniton st.visited (.node cid) = none) :
    cid ∉ visitedIds st := by
  intro hmem
  unfold visitedIds at hmem
  rw [List.mem_toFinset, List.mem_filterMap] at hmem
  obtain ⟨v, hv, hvp⟩ := hmem
  unfold findReferenceDefiniton at h
  rw [List.find?_eq_none] at h
  have hnv := h v hv
  cases hp : v.parts with
  | str s => rw [hp] at hvp; cases hvp
  | absent => rw [hp] at hvp; cases hvp
  | node i =>
    rw [hp] at hvp
    injection hvp with hvp
    apply hnv
    rw [hp, hvp]
    exact decide_eq_true rfl

theorem fuelNeed_le_of_unvisited (heap : Heap) (cid : Nat) (st : ParseState)
    (F : Nat) (hnot : cid ∉ visitedIds st)
    (hfuel : 1 + (heapIds heap \ visitedIds st).card ≤ F) :
    fuelNeed heap (.node cid) st ≤ F := by
  simp only [fuelNeed]
  by_cases hc : cid ∈ heapIds heap
  · rw [if_pos hc]
    have hmem : cid ∈ heapIds heap \ visitedIds st :=
      Finset.mem_sdiff.mpr ⟨hc, hnot⟩
    have hnot2 : cid ∉ heapIds heap \ (visitedIds st ∪ {cid}) := by
      simp [Finset.mem_sdiff]
    have hsub : heapIds heap \ (visitedIds st ∪ {cid}) ⊆ heapIds heap \ visitedIds st :=
      Finset.sdiff_subset_sdiff (Finset.Subset.refl _) Finset.subset_union_left
    have hlt : (heapIds heap \ (visitedIds st ∪ {cid})).card <
        (heapIds heap \ visitedIds st).card :=
      Finset.card_lt_card ⟨hsub, fun hts => hnot2 (hts hmem)⟩
    omega
  · rw [if_neg hc]
    omega

theorem card_sdiff_anti (heap : Heap) {st st' : ParseState}
    (h : st.visited <+: st'.visited) :
    (heapIds heap \ visitedIds st').card ≤ (heapIds heap \ visitedIds st).card :=
  Finset.card_le_card
    (Finset.sdiff_subset_sdiff (Finset.Subset.refl _) (visitedIds_mono h))

theorem entryStep_noFuel
    (pd : String → DefParts → List String → ParseState →
      Except ParseError (Nat × ParseState))
    (heap : Heap) (F : Nat)
    (HpdT : ∀ name dp stack s, fuelNeed heap dp s ≤ F →
      pd name dp stack s ≠ .error .outOfFuel)
    (propName : String) (ty : RawVal) (name : String) (stack : List String)
    (st : ParseState)
    (hfuel : 1 + (heapIds heap \ visitedIds st).card ≤ F) :
    entryStep pd heap propName ty name stack st ≠ .error .outOfFuel := by
  unfold entryStep
  by_cases h1 : propName = "targetNSAlias"
  · rw [if_pos h1]; intro hx; cases hx
  · rw [if_neg h1]
    by_cases h2 : propName = "typeName"
    · rw [if_pos h2]; intro hx; cases hx
    · rw [if_neg h2]
      by_cases h3 : propName = "targetNamespace"
      · rw [if_pos h3]; intro hx; cases hx
      · rw [if_neg h3]
        by_cases h4 : endsWithArr propName = true
        · rw [if_pos h4]
          cases ty with
          | prim s => intro hx; cases hx
          | complexType nm => intro hx; cases hx
          | node cid =>
            cases hf : findReferenceDefiniton st.visited (.node cid) with
            | some v => simp only [hf]; intro hx; cases hx
            | none =>
              simp only [hf]
              have hneed : fuelNeed heap (.node cid) st ≤ F :=
                fuelNeed_le_of_unvisited heap cid st F
                  (findRef_none_not_mem st cid hf) hfuel
              cases hpd : pd (subTypeName heap cid (stripArr propName)) (.node cid)
                  (stack ++ [propName]) st with
              | error e =>
                cases e with
                | outOfFuel => exact absurd hpd (HpdT _ _ _ _ hneed)
                | collisionAt p n => simp only [hpd]; intro hx; cases hx
                | subdefinitionFailure p n => simp only [hpd]; intro hx; cases hx
                | jsTypeError => simp only [hpd]; intro hx; cases hx
              | ok pr =>
                obtain ⟨subIdx, st1⟩ := pr
                simp only [hpd]; intro hx; cases hx
        · rw [if_neg h4]
          cases ty with
          | prim s => intro hx; cases hx
          | complexType nm => intro hx; cases hx
          | node cid =>
            cases hf : findReferenceDefiniton st.visited (.node cid) with
            | some v => simp only [hf]; intro hx; cases hx
            | none =>
              simp only [hf]
              have hneed : fuelNeed heap (.node cid) st ≤ F :=
                fuelNeed_le_of_unvisited heap cid st F
                  (findRef_none_not_mem st cid hf) hfuel
              cases hpd : pd (subTypeName heap cid propName) (.node cid)
                  (stack ++ [propName]) st with
              | error e =>
                cases e with
                | outOfFuel => exact absurd hpd (HpdT _ _ _ _ hneed)
                | collisionAt p n => simp only [hpd]; intro hx; cases hx
                | subdefinitionFailure p n => simp only [hpd]; intro hx; cases hx
                | jsTypeError => simp only [hpd]; intro hx; cases hx
              | ok pr =>
                obtain ⟨subIdx, st1⟩ := pr
                simp only [hpd]; intro hx; cases hx

theorem processEntriesCore_noFuel
    (pd : String → DefParts → List String → ParseState →
      Except ParseError (Nat × ParseState))
    (heap : Heap) (F : Nat)
    (HpdT : ∀ name dp stack s, fuelNeed heap dp s ≤ F →
      pd name dp stack s ≠ .error .outOfFuel)
    (HpdV : ∀ name dp stack s i s', pd name dp stack s = .ok (i, s') →
      s.visited <+: s'.visited) :
    ∀ (entries : List (String × RawVal)) (name : String) (stack : List String)
      (st : ParseState),
      1 + (heapIds heap \ visitedIds st).card ≤ F →
      processEntriesCore pd heap entries name stack st ≠ .error .outOfFuel := by
  intro entries
  induction entries with
  | nil =>
    intro name stack st _ hx
    cases hx
  | cons e rest ih =>
    intro name stack st hfuel
    unfold processEntriesCore
    cases hstep : entryStep pd heap e.1 e.2 name stack st with
    | error err =>
      simp only [hstep]
      intro hx
      injection hx with hx
      rw [hx] at hstep
      exact entryStep_noFuel pd heap F HpdT e.1 e.2 name stack st hfuel hstep
    | ok trip =>
      obtain ⟨d1, p1, st1⟩ := trip
      have hvis : st.visited <+: st1.visited :=
        entryStep_rel pd (fun a b => a.visited <+: b.visited) heap
          (fun s => List.prefix_refl _)
          (fun n dp sk s j s2 hx => HpdV n dp sk s j s2 hx)
          e.1 e.2 name stack st d1 p1 st1 hstep
      have hfuel1 : 1 + (heapIds heap \ visitedIds st1).card ≤ F := by
        have := card_sdiff_anti heap hvis
        omega
      cases hrest : processEntriesCore pd heap rest name stack st1 with
      | error err =>
        simp only [hstep, hrest]
        intro hx
        injection hx with hx
        rw [hx] at hrest
        exact ih name stack st1 hfuel1 hrest
      | ok trip2 =>
        simp only [hstep, hrest]
        intro hx
        cases hx

theorem parseDefinition_noFuel (cfg : SessionConfig) (heap : Heap)
    (opts : ParserOptions) :
    ∀ (fuel : Nat) (name : String) (defParts : DefParts) (stack : List String)
      (st : ParseState),
      fuelNeed heap defParts st ≤ fuel →
      parseDefinition cfg heap opts fuel name defParts stack st ≠ .error .outOfFuel := by
  intro fuel
  induction fuel with
  | zero =>
    intro name defParts stack st hfuel
    have := fuelNeed_pos heap defParts st
    omega
  | succ f ih =>
    intro name defParts stack st hfuel
    unfold parseDefinition
    cases hreg : findNonCollisionDefinitionName cfg st.definitions (changeCase name true) with
    | none => simp only [hreg]; intro hx; cases hx
    | some cand =>
      simp only [hreg]
      cases defParts with
      | str s =>
        cases hsplit : splitOnChar '|' s with
        | nil => simp only [hsplit]; intro hx; cases hx
        | cons p0 prest =>
          cases prest with
          | nil => simp only [hsplit]; intro hx; cases hx
          | cons p1 prest2 => simp only [hsplit]; intro hx; cases hx
      | absent => intro hx; cases hx
      | node id =>
        cases hlook : heap.lookupNode id with
        | none => simp only [hlook]; intro hx; cases hx
        | some raw =>
          simp only [hlook]
          by_cases hq : raw.undefQuirk = true
          · rw [if_pos hq]; intro hx; cases hx
          · rw [if_neg hq]
            have hid : id ∈ heapIds heap := lookupNode_mem heap id raw hlook
            have hfuel2 : 1 + (heapIds heap \
                visitedIds (registerDef opts name cand (.node id) st)).card ≤ f := by
              simp only [fuelNeed] at hfuel
              rw [if_pos hid] at hfuel
              rw [visitedIds_registerDef_node]
              omega
            cases hpec : processEntriesCore (parseDefinition cfg heap opts f) heap
                raw.entries name stack (registerDef opts name cand (.node id) st) with
            | error e =>
              simp only [hpec]
              intro hx
              injection hx with hx
              rw [hx] at hpec
              exact processEntriesCore_noFuel (parseDefinition cfg heap opts f) heap f
                (fun n dp sk s hn => ih n dp sk s hn)
                (fun n dp sk s j s2 hx2 =>
                  (parseDefinition_evolves cfg heap opts f n dp sk s j s2 hx2).2.1)
                raw.entries name stack _ hfuel2 hpec
            | ok trip =>
              obtain ⟨docs2, props2, st2⟩ := trip
              simp only [hpec]
              intro hx
              cases hx

/-! ### Walker-level state evolution -/

theorem resolveElementRole_evolves (cfg : SessionConfig) (heap : Heap)
    (opts : ParserOptions) (fuel : Nat) (msg : WsdlMessage) (el : WsdlElement)
    (st : ParseState) (r : Option Nat) (st' : ParseState)
    (h : resolveElementRole cfg heap opts fuel msg el st = .ok (r, st')) :
    StateEvolves opts st st' := by
  unfold resolveElementRole at h
  cases hfd : findDefinition st.definitions
      (if msg.parts.isStr then el.elName
       else (splitOnChar ':' (el.elType.getD el.elName)).getLastD "") with
  | some i =>
    simp only [hfd, Except.ok.injEq, Prod.mk.injEq] at h
    rw [← h.2]
    exact stateEvolves_refl opts st
  | none =>
    simp only [hfd] at h
    cases hpd : parseDefinition cfg heap opts fuel
        (if msg.parts.isStr then el.elName
         else (splitOnChar ':' (el.elType.getD el.elName)).getLastD "")
        msg.parts
        [if msg.parts.isStr then el.elName
         else (splitOnChar ':' (el.elType.getD el.elName)).getLastD ""] st with
    | error e => simp only [hpd] at h; exact Except.noConfusion h
    | ok pr =>
      obtain ⟨j, st1⟩ := pr
      simp only [hpd, Except.ok.injEq, Prod.mk.injEq] at h
      rw [← h.2]
      exact parseDefinition_evolves cfg heap opts fuel _ _ _ st j st1 hpd

theorem resolveNamedParts_evolves (cfg : SessionConfig) (heap : Heap)
    (opts : ParserOptions) (fuel : Nat) (n : String) (parts : DefParts)
    (st : ParseState) (r : Option Nat) (st' : ParseState)
    (h : resolveNamedParts cfg heap opts fuel n parts st = .ok (r, st')) :
    StateEvolves opts st st' := by
  unfold resolveNamedParts at h
  cases hfd : findDefinition st.definitions n with
  | some i =>
    simp only [hfd, Except.ok.injEq, Prod.mk.injEq] at h
    rw [← h.2]
    exact stateEvolves_refl opts st
  | none =>
    simp only [hfd] at h
    cases hpd : parseDefinition cfg heap opts fuel n parts [n] st with
    | error e => simp only [hpd] at h; exact Except.noConfusion h
    | ok pr =>
      obtain ⟨j, st1⟩ := pr
      simp only [hpd, Except.ok.injEq, Prod.mk.injEq] at h
      rw [← h.2]
      exact parseDefinition_evolves cfg heap opts fuel _ _ _ st j st1 hpd

theorem resolveHeaderRole_evolves (cfg : SessionConfig) (heap : Heap)
    (opts : ParserOptions) (w : Wsdl) (fuel : Nat) (hdr : Option String)
    (st : ParseState) (r : Option Nat) (st' : ParseState)
    (h : resolveHeaderRole cfg heap opts w fuel hdr st = .ok (r, st')) :
    StateEvolves opts st st' := by
  unfold resolveHeaderRole at h
  cases hdr with
  | none =>
    simp only [Except.ok.injEq, Prod.mk.injEq] at h
    rw [← h.2]
    exact stateEvolves_refl opts st
  | some hn =>
    cases hlm : lookupMessage w hn with
    | none => simp only [hlm] at h; exact Except.noConfusion h
    | some hm =>
      simp only [hlm] at h
      cases hel : hm.element with
      | some el =>
        simp only [hel] at h
        exact resolveElementRole_evolves cfg heap opts fuel hm el st r st' h
      | none =>
        simp only [hel] at h
        by_cases ht : hm.parts.truthy = true
        · rw [if_pos ht] at h
          exact resolveNamedParts_evolves cfg heap opts fuel hn hm.parts st r st' h
        · rw [if_neg ht] at h
          simp only [Except.ok.injEq, Prod.mk.injEq] at h
          rw [← h.2]
          exact stateEvolves_refl opts st

theorem resolveInputBody_evolves (cfg : SessionConfig) (heap : Heap)
    (opts : ParserOptions) (w : Wsdl) (fuel : Nat) (inName paramName : String)
    (st : ParseState) (r : Option Nat) (st' : ParseState)
    (h : resolveInputBody cfg heap opts w fuel inName paramName st = .ok (r, st')) :
    StateEvolves opts st st' := by
  unfold resolveInputBody at h
  cases hlm : lookupMessage w inName with
  | none => simp only [hlm] at h; exact Except.noConfusion h
  | some im =>
    simp only [hlm] at h
    cases hel : im.element with
    | some el =>
      simp only [hel] at h
      exact resolveElementRole_evolves cfg heap opts fuel im el st r st' h
    | none =>
      simp only [hel] at h
      by_cases ht : im.parts.truthy = true
      · rw [if_pos ht] at h
        exact resolveNamedParts_evolves cfg heap opts fuel paramName im.parts st r st' h
      · rw [if_neg ht] at h
        simp only [Except.ok.injEq, Prod.mk.injEq] at h
        rw [← h.2]
        exact stateEvolves_refl opts st

theorem resolveOutputBody_evolves (cfg : SessionConfig) (heap : Heap)
    (opts : ParserOptions) (w : Wsdl) (fuel : Nat) (outName : String)
    (st : ParseState) (r : Option Nat) (st' : ParseState)
    (h : resolveOutputBody cfg heap opts w fuel outName st = .ok (r, st')) :
    StateEvolves opts st st' := by
  unfold resolveOutputBody at h
  cases hlm : lookupMessage w outName with
  | none => simp only [hlm] at h; exact Except.noConfusion h
  | some om =>
    simp only [hlm] at h
    cases hel : om.element with
    | some el =>
      simp only [hel] at h
      exact resolveElementRole_evolves cfg heap opts fuel om el st r st' h
    | none =>
      simp only [hel] at h
      exact resolveNamedParts_evolves cfg heap opts fuel outName om.parts st r st' h

theorem resolveFaultRole_evolves (cfg : SessionConfig) (heap : Heap)
    (opts : ParserOptions) (w : Wsdl) (fuel : Nat) (fName : String)
    (st : ParseState) (r : Option Nat) (st' : ParseState)
    (h : resolveFaultRole cfg heap opts w fuel fName st = .ok (r, st')) :
    StateEvolves opts st st' := by
  unfold resolveFaultRole at h
  cases hlm : lookupMessage w fName with
  | none => simp only [hlm] at h; exact Except.noConfusion h
  | some fm =>
    simp only [hlm] at h
    cases hel : fm.element with
    | some el =>
      simp only [hel] at h
      exact resolveElementRole_evolves cfg heap opts fuel fm el st r st' h
    | none =>
      simp only [hel] at h
      by_cases ht : fm.parts.truthy = true
      · rw [if_pos ht] at h
        exact resolveNamedParts_evolves cfg heap opts fuel fName fm.parts st r st' h
      · rw [if_neg ht] at h
        simp only [Except.ok.injEq, Prod.mk.injEq] at h
        rw [← h.2]
        exact stateEvolves_refl opts st

theorem runRole_evolves (opts : ParserOptions) (inp : Option String)
    (f : String → ParseState → Except ParseError (Option Nat × ParseState))
    (st : ParseState) (r : Option Nat) (st' : ParseState)
    (Hf : ∀ x s q s', f x s = .ok (q, s') → StateEvolves opts s s')
    (h : runRole inp f st = .ok (r, st')) : StateEvolves opts st st' := by
  unfold runRole at h
  cases inp with
  | none =>
    simp only [Except.ok.injEq, Prod.mk.injEq] at h
    rw [← h.2]
    exact stateEvolves_refl opts st
  | some x => exact Hf x st r st' h

theorem processMethod_evolves (cfg : SessionConfig) (heap : Heap)
    (opts : ParserOptions) (w : Wsdl) (fuel : Nat) (methodName : String)
    (m : WsdlMethod) (st0 : ParseState) (meth : Method) (st' : ParseState)
    (h : processMethod cfg heap opts w fuel methodName m st0 = .ok (meth, st')) :
    StateEvolves opts st0 st' := by
  unfold processMethod at h
  cases h1 : runRole m.input
      (fun _ s => resolveHeaderRole cfg heap opts w fuel m.inputHeader s) st0 with
  | error e => simp only [h1] at h; exact Except.noConfusion h
  | ok pr1 =>
    obtain ⟨ihd, st1⟩ := pr1
    simp only [h1] at h
    cases h2 : runRole m.input
        (fun inName s =>
          resolveInputBody cfg heap opts w fuel inName (methodParamName m) s) st1 with
    | error e => simp only [h2] at h; exact Except.noConfusion h
    | ok pr2 =>
      obtain ⟨ipd, st2⟩ := pr2
      simp only [h2] at h
      cases h3 : runRole m.output
          (fun _ s => resolveHeaderRole cfg heap opts w fuel m.outputHeader s) st2 with
      | error e => simp only [h3] at h; exact Except.noConfusion h
      | ok pr3 =>
        obtain ⟨ohd, st3⟩ := pr3
        simp only [h3] at h
        cases h4 : runRole m.output
            (fun outName s => resolveOutputBody cfg heap opts w fuel outName s) st3 with
        | error e => simp only [h4] at h; exact Except.noConfusion h
        | ok pr4 =>
          obtain ⟨rd, st4⟩ := pr4
          simp only [h4] at h
          cases h5 : runRole m.fault
              (fun fName s => resolveFaultRole cfg heap opts w fuel fName s) st4 with
          | error e => simp only [h5] at h; exact Except.noConfusion h
          | ok pr5 =>
            obtain ⟨fd, st5⟩ := pr5
            simp only [h5, Except.ok.injEq, Prod.mk.injEq] at h
            rw [← h.2]
            have e1 := runRole_evolves opts m.input _ st0 ihd st1
              (fun x s q s' hx => resolveHeaderRole_evolves cfg heap opts w fuel
                m.inputHeader s q s' hx) h1
            have e2 := runRole_evolves opts m.input _ st1 ipd st2
              (fun x s q s' hx => resolveInputBody_evolves cfg heap opts w fuel
                x (methodParamName m) s q s' hx) h2
            have e3 := runRole_evolves opts m.output _ st2 ohd st3
              (fun x s q s' hx => resolveHeaderRole_evolves cfg heap opts w fuel
                m.outputHeader s q s' hx) h3
            have e4 := runRole_evolves opts m.output _ st3 rd st4
              (fun x s q s' hx => resolveOutputBody_evolves cfg heap opts w fuel
                x s q s' hx) h4
            have e5 := runRole_evolves opts m.fault _ st4 fd st5
              (fun x s q s' hx => resolveFaultRole_evolves cfg heap opts w fuel
                x s q s' hx) h5
            exact stateEvolves_trans e1 (stateEvolves_trans e2
              (stateEvolves_trans e3 (stateEvolves_trans e4 e5)))

theorem processMethods_evolves (cfg : SessionConfig) (heap : Heap)
    (opts : ParserOptions) (w : Wsdl) (fuel : Nat) :
    ∀ (ms : List (String × WsdlMethod)) (st : ParseState)
      (out : List Method) (st' : ParseState),
      processMethods cfg heap opts w fuel ms st = .ok (out, st') →
      StateEvolves opts st st' := by
  intro ms
  induction ms with
  | nil =>
    intro st out st' h
    unfold processMethods at h
    simp only [Except.ok.injEq, Prod.mk.injEq] at h
    rw [← h.2]
    exact stateEvolves_refl opts st
  | cons e rest ih =>
    intro st out st' h
    unfold processMethods at h
    cases h1 : processMethod cfg heap opts w fuel e.1 e.2 st with
    | error e2 => simp only [h1] at h; exact Except.noConfusion h
    | ok pr =>
      obtain ⟨meth, st1⟩ := pr
      simp only [h1] at h
      cases h2 : processMethods cfg heap opts w fuel rest st1 with
      | error e2 => simp only [h2] at h; exact Except.noConfusion h
      | ok pr2 =>
        obtain ⟨ms2, st2⟩ := pr2
        simp only [h2, Except.ok.injEq, Prod.mk.injEq] at h
        rw [← h.2]
        exact stateEvolves_trans
          (processMethod_evolves cfg heap opts w fuel e.1 e.2 st meth st1 h1)
          (ih st1 ms2 st2 h2)

theorem processPorts_evolves (cfg : SessionConfig) (heap : Heap)
    (opts : ParserOptions) (w : Wsdl) (fuel : Nat) :
    ∀ (ps : List (String × WsdlPort)) (st : ParseState)
      (out : List Port) (st' : ParseState),
      processPorts cfg heap opts w fuel ps st = .ok (out, st') →
      StateEvolves opts st st' := by
  intro ps
  induction ps with
  | nil =>
    intro st out st' h
    unfold processPorts at h
    simp only [Except.ok.injEq, Prod.mk.injEq] at h
    rw [← h.2]
    exact stateEvolves_refl opts st
  | cons e rest ih =>
    intro st out st' h
    unfold processPorts at h
    cases h1 : processMethods cfg heap opts w fuel e.2.methods st with
    | error e2 => simp only [h1] at h; exact Except.noConfusion h
    | ok pr =>
      obtain ⟨ms1, st1⟩ := pr
      simp only [h1] at h
      cases h2 : processPorts cfg heap opts w fuel rest st1 with
      | error e2 => simp only [h2] at h; exact Except.noConfusion h
      | ok pr2 =>
        obtain ⟨ps2, st2⟩ := pr2
        simp only [h2, Except.ok.injEq, Prod.mk.injEq] at h
        rw [← h.2]
        exact stateEvolves_trans
          (processMethods_evolves cfg heap opts w fuel e.2.methods st ms1 st1 h1)
          (ih st1 ps2 st2 h2)

theorem processServices_evolves (cfg : SessionConfig) (heap : Heap)
    (opts : ParserOptions) (w : Wsdl) (fuel : Nat) :
    ∀ (ss : List (String × WsdlService)) (st : ParseState)
      (outS : List Service) (outP : List Port) (st' : ParseState),
      processServices cfg heap opts w fuel ss st = .ok (outS, outP, st') →
      StateEvolves opts st st' := by
  intro ss
  induction ss with
  | nil =>
    intro st outS outP st' h
    unfold processServices at h
    simp only [Except.ok.injEq, Prod.mk.injEq] at h
    rw [← h.2.2]
    exact stateEvolves_refl opts st
  | cons e rest ih =>
    intro st outS outP st' h
    unfold processServices at h
    cases h1 : processPorts cfg heap opts w fuel e.2.ports st with
    | error e2 => simp only [h1] at h; exact Except.noConfusion h
    | ok pr =>
      obtain ⟨ps1, st1⟩ := pr
      simp only [h1] at h
      cases h2 : processServices cfg heap opts w fuel rest st1 with
      | error e2 => simp only [h2] at h; exact Except.noConfusion h
      | ok pr2 =>
        obtain ⟨ss2, flat2, st2⟩ := pr2
        simp only [h2, Except.ok.injEq, Prod.mk.injEq] at h
        rw [← h.2.2]
        exact stateEvolves_trans
          (processPorts_evolves cfg heap opts w fuel e.2.ports st ps1 st1 h1)
          (ih st1 ss2 flat2 st2 h2)

/-! ### Concrete fixtures for the claims -/

/-- Three distinct raw structures (distinct identities, no entries) that all
propose the name `Address`. -/
def c3heap : Heap := [(1, ⟨none, false, []⟩), (2, ⟨none, false, []⟩), (3, ⟨none, false, []⟩)]

/-- Feed the result state of one resolution into the next proposal of
`Address`. -/
def c3step (cfg : SessionConfig) (id : Nat)
    (r : Except ParseError (Nat × ParseState)) : Except ParseError (Nat × ParseState) :=
  match r with
  | .ok (_, st) => parseDefinition cfg c3heap defaultOptions 2 "Address" (.node id) ["Address"] st
  | .error e => .error e

/-- A raw structure whose property `self` is the very same raw node. -/
def cycHeap : Heap := [(0, ⟨none, false, [("self", RawVal.node 0)]⟩)]

/-- A two-node cycle: node 0's property `b` is node 1, whose property `a`
is node 0 again. -/
def abHeap : Heap := [(0, ⟨none, false, [("b", RawVal.node 1)]⟩),
  (1, ⟨none, false, [("a", RawVal.node 0)]⟩)]

/-- A parent whose nested child (named `b` via its `typeName`) will exhaust
the collision retries against a pre-registered definition `B`. -/
def c4heap : Heap := [(0, ⟨none, false, [("child", RawVal.node 1)]⟩),
  (1, ⟨some "b", false, []⟩)]

/-- A raw mapping carrying the decoder quirk (`undefined` key with an
`undefined` value) next to an ordinary primitive entry `a`. -/
def c8heap : Heap := [(0, ⟨none, true, [("a", RawVal.prim "int")]⟩)]

/-- One shared message-parts node with a primitive entry. -/
def c2heap : Heap := [(1, ⟨none, false, [("a", RawVal.prim "int")]⟩)]

/-- Two methods whose input messages are the same message `t`. -/
def c2wsdl : Wsdl :=
  { services := [("S", ⟨[("P", ⟨[("m1", ⟨some "t", none, none, none, none⟩),
                                ("m2", ⟨some "t", none, none, none, none⟩)]⟩)]⟩)]
    messages := [("t", ⟨none, .node 1⟩)] }

/-- One self-referential raw node used as the parts of message `t`. -/
def c5heap : Heap := [(5, ⟨none, false, [("s", RawVal.node 5)]⟩)]

/-- Two methods whose output messages both name message `t` (no element
declared). -/
def c5wsdl : Wsdl :=
  { services := [("S", ⟨[("P", ⟨[("m1", ⟨none, none, some "t", none, none⟩),
                                ("m2", ⟨none, none, some "t", none, none⟩)]⟩)]⟩)]
    messages := [("t", ⟨none, .node 5⟩)] }

/-- Two properties (`x`, `y`) of the same parent pointing at the identical
raw node 1. -/
def shareHeap : Heap := [(0, ⟨none, false, [("x", RawVal.node 1), ("y", RawVal.node 1)]⟩),
  (1, ⟨none, false, [("v", RawVal.prim "int")]⟩)]

/-- Two properties pointing at structurally identical but distinct raw
nodes 1 and 2. -/
def distinctHeap : Heap := [(0, ⟨none, false, [("x", RawVal.node 1), ("y", RawVal.node 2)]⟩),
  (1, ⟨none, false, [("v", RawVal.prim "int")]⟩), (2, ⟨none, false, [("v", RawVal.prim "int")]⟩)]

/-- One method declaring all five message roles, every message having
neither an element nor parts. -/
def c7wsdl : Wsdl :=
  { services := [("S", ⟨[("P", ⟨[("m", ⟨some "i", some "ih", some "o", some "oh", some "f"⟩)]⟩)]⟩)]
    messages := [("i", ⟨none, .absent⟩), ("ih", ⟨none, .absent⟩), ("o", ⟨none, .absent⟩),
                 ("oh", ⟨none, .absent⟩), ("f", ⟨none, .absent⟩)] }

/-- A session with one definition holding one primitive property `Foo`. -/
def c9defs : List Definition :=
  [⟨"D", "D", [], [Property.primitive "Foo" "Foo" "x" "string" false], ""⟩]

/-- A session with one definition holding one primitive property `bar`. -/
def c9defs2 : List Definition :=
  [⟨"D", "D", [], [Property.primitive "bar" "bar" "x" "string" false], ""⟩]

/-! ### Claim theorems -/

theorem fuelNeed_le_card_add_two (heap : Heap) (defParts : DefParts)
    (st : ParseState) : fuelNeed heap defParts st ≤ (heapIds heap).card + 2 := by
  cases defParts with
  | node id =>
    simp only [fuelNeed]
    by_cases h : id ∈ heapIds heap
    · rw [if_pos h]
      have hsub : heapIds heap \ (visitedIds st ∪ {id}) ⊆ heapIds heap :=
        Finset.sdiff_subset
      have := Finset.card_le_card hsub
      omega
    · rw [if_neg h]; omega
  | str s => simp only [fuelNeed]; omega
  | absent => simp only [fuelNeed]; omega

/-- C1: on any heap — in particular one with a structure referencing itself
directly or via a chain A→B→A — `parseDefinition` terminates within
recursion depth bounded by the number of distinct raw nodes (fuel
`|heapIds| + 2` never hits the out-of-fuel marker); and on the concrete
direct cycle and the A→B→A chain, the REFERENCE property closing the cycle
carries `ref` equal to the index of the ancestor Definition already created
for that raw node — the same instance, no duplicate Definition — because the
definition is pushed into the session collection and the visited cache
before any recursion into its children. -/
theorem C1_cycle_termination :
    (∀ (cfg : SessionConfig) (heap : Heap) (opts : ParserOptions)
      (name : String) (defParts : DefParts) (stack : List String) (st : ParseState),
      parseDefinition cfg heap opts ((heapIds heap).card + 2) name defParts stack st ≠
        .error .outOfFuel) ∧
    parseDefinition ⟨64, false⟩ cycHeap defaultOptions 3 "a" (.node 0) ["a"] ⟨[], []⟩ =
      .ok (0, ⟨[⟨"A", "a", ["a"], [Property.reference "self" "self" (some "") 0 false], ""⟩],
        [⟨"A", .node 0, 0⟩]⟩) ∧
    parseDefinition ⟨64, false⟩ abHeap defaultOptions 3 "a" (.node 0) ["a"] ⟨[], []⟩ =
      .ok (0, ⟨[⟨"A", "a", ["a"], [Property.reference "b" "b" none 1 false], ""⟩,
                ⟨"B", "b", ["b"], [Property.reference "a" "a" (some "") 0 false], ""⟩],
        [⟨"A", .node 0, 0⟩, ⟨"B", .node 1, 1⟩]⟩) := by
  refine ⟨?_, rfl, rfl⟩
  intro cfg heap opts name defParts stack st
  exact parseDefinition_noFuel cfg heap opts _ name defParts stack st
    (fuelNeed_le_card_add_two heap defParts st)

set_option maxHeartbeats 2000000 in
/-- C3: with the default configuration (retry ceiling 64), three distinct raw
structures proposing `Address` resolve to `Address`, `Address2`, `Address3`
in turn; with `maxStack = 1` the first two proposals still resolve
(`Address`, `Address2`) but the third fails with the name-collision
exhaustion error rather than returning a name. -/
theorem C3_collision_policy :
    defaultOptions.maxRecursiveDefinitionName = 64 ∧
    (c3step ⟨64, false⟩ 3 (c3step ⟨64, false⟩ 2 (c3step ⟨64, false⟩ 1
        (.ok (0, ⟨[], []⟩))))).map (fun p => defNames p.2.definitions) =
      .ok ["Address", "Address2", "Address3"] ∧
    (c3step ⟨1, false⟩ 2 (c3step ⟨1, false⟩ 1 (.ok (0, ⟨[], []⟩)))).map
        (fun p => defNames p.2.definitions) = .ok ["Address", "Address2"] ∧
    c3step ⟨1, false⟩ 3 (c3step ⟨1, false⟩ 2 (c3step ⟨1, false⟩ 1
        (.ok (0, ⟨[], []⟩)))) = .error (.collisionAt ["Address"] "Address") :=
  ⟨rfl, rfl, rfl, rfl⟩

/-- C4: the code at the failing input — a nested definition `b` whose naming
exhausts the collision retries two levels deep — surfaces at the top level
as an error carrying only the *outermost* path segment `["a"]` and the
outer name `a`: the full ancestor chain `["a", "child"]` and the exhausted
base name `b` carried by the inner error are discarded by the catch block,
whose stack-concatenation expression computes a value that is never
assigned. -/
theorem C4_error_path :
    parseDefinition ⟨0, false⟩ c4heap defaultOptions 3 "a" (.node 0) ["a"]
      ⟨[⟨"B", "B", [], [], ""⟩], []⟩ = .error (.subdefinitionFailure ["a"] "a") ∧
    (ParseError.subdefinitionFailure ["a"] "a" ≠
      .collisionAt ["a", "child"] "b") ∧
    (["a"] : List String) ≠ ["a", "child"] :=
  ⟨rfl, by decide, by decide⟩

/-- C6 counterexample: the claim says `mapPrimitive("tns:INT")` yields
Number, but the table lookup is case-sensitive, so `getType "tns:INT"`
yields the string default, not `"number"`. -/
theorem C6_counterexample :
    getType "tns:INT" = "string" ∧ ("string" : String) ≠ "number" :=
  ⟨rfl, by decide⟩

set_option maxHeartbeats 1000000 in
theorem primitiveTable_mem (t v : String) (h : primitiveTable t = some v) :
    v = "number" ∨ v = "boolean" ∨ v = "Date" ∨ v = "any" := by
  unfold primitiveTable at h
  repeat' split at h
  all_goals first
    | exact Option.noConfusion h
    | (injection h with h; subst h; simp)

/-- C6 amended: the mapper strips everything before the last `:`, maps the
integer family and floating/decimal tokens to Number, `bool`/`boolean` to
Boolean, `date`/`dateTime` to Date, `anyType` to Dynamic, and anything
unrecognized — including the upper-cased `tns:INT`, since the lookup is
case-sensitive — to the String default; it is total and always yields one
of the five target kinds. -/
theorem C6_amended :
    getType "xs:int" = "number" ∧ getType "int" = "number" ∧
    getType "a:b:long" = "number" ∧ getType "integer" = "number" ∧
    getType "short" = "number" ∧ getType "double" = "number" ∧
    getType "float" = "number" ∧ getType "decimal" = "number" ∧
    getType "bool" = "boolean" ∧ getType "xs:boolean" = "boolean" ∧
    getType "date" = "Date" ∧ getType "dateTime" = "Date" ∧
    getType "anyType" = "any" ∧ getType "xs:unknownThing" = "string" ∧
    getType "tns:INT" = "string" ∧
    (∀ s : String, getType s = "number" ∨ getType s = "boolean" ∨
      getType s = "Date" ∨ getType s = "any" ∨ getType s = "string") := by
  refine ⟨rfl, rfl, rfl, rfl, rfl, rfl, rfl, rfl, rfl, rfl, rfl, rfl, rfl, rfl, rfl, ?_⟩
  intro s
  unfold getType
  cases h : primitiveTable ((splitOnChar ':' s).getLastD "") with
  | none => simp
  | some v =>
    rcases primitiveTable_mem _ v h with h1 | h1 | h1 | h1 <;> simp [h1]

/-- C8 counterexample: with the quirk key present, the enclosing Definition
is produced with *zero* properties — the mapping's other entry `a` is not
processed as a property, contrary to the claim. -/
theorem C8_counterexample :
    parseDefinition ⟨64, false⟩ c8heap defaultOptions 2 "q" (.node 0) ["q"] ⟨[], []⟩ =
      .ok (0, ⟨[⟨"Q", "q", ["q"], [], ""⟩], [⟨"Q", .node 0, 0⟩]⟩) ∧
    ([] : List Property) ≠ [Property.primitive "a" "a" "int" "number" false] :=
  ⟨rfl, by decide⟩

/-- C2 counterexample: with a nonempty model-name prefix (`"M"`), two
methods sharing message `t` produce two Definitions both finally named
`"MT"` — the collision check receives the unprefixed candidate `"T"` while
stored names carry the prefix, so the uniqueness invariant fails. -/
theorem C2_counterexample :
    (parseWsdl "a.wsdl" ⟨some "M", none, none⟩ false c2heap c2wsdl 3).map
      (fun pw => defNames pw.definitions) = .ok ["MT", "MT"] ∧
    ¬ (["MT", "MT"] : List String).Nodup :=
  ⟨rfl, by decide⟩

/-- C2 amended: whenever the merged options carry an empty model-name prefix
and suffix (the defaults), every successful `parseWsdl` run yields a session
whose Definitions all bear pairwise distinct final names, for any document,
any heap, any fuel, and either case-comparison configuration. -/
theorem C2_uniqueness_amended (wsdlPath : String) (options : PartialParserOptions)
    (ci : Bool) (heap : Heap) (w : Wsdl) (fuel : Nat) (pw : ParsedWsdl)
    (hp : (mergeOptions options).modelNamePreffix = "")
    (hs : (mergeOptions options).modelNameSuffix = "")
    (h : parseWsdl wsdlPath options ci heap w fuel = .ok pw) :
    UniqNames pw.definitions := by
  unfold parseWsdl at h
  cases hps : processServices ⟨options.maxRecursiveDefinitionName.getD 64, ci⟩ heap
      (mergeOptions options) w fuel w.services ⟨[], []⟩ with
  | error e => simp only [hps] at h; exact Except.noConfusion h
  | ok trip =>
    obtain ⟨ss, fp, st⟩ := trip
    simp only [hps, Except.ok.injEq] at h
    have hev := processServices_evolves _ heap (mergeOptions options) w fuel
      w.services ⟨[], []⟩ ss fp st hps
    have hu : UniqNames (⟨[], []⟩ : ParseState).definitions := List.Pairwise.nil
    have hfin := hev.2.2 hp hs hu
    rw [← h]
    exact hfin

/-- Extract the session root of a successful run (dummy on failure). -/
def exceptOk (r : Except ParseError ParsedWsdl) : ParsedWsdl :=
  match r with
  | .ok pw => pw
  | .error _ => ⟨"", "", "", [], [], []⟩

theorem C2_uniqueness_amended_witness :
    UniqNames (exceptOk (parseWsdl "a.wsdl" ⟨none, none, none⟩ false c2heap c2wsdl 3)).definitions :=
  C2_uniqueness_amended "a.wsdl" ⟨none, none, none⟩ false c2heap c2wsdl 3
    (exceptOk (parseWsdl "a.wsdl" ⟨none, none, none⟩ false c2heap c2wsdl 3)) rfl rfl rfl

/-- C5 counterexample: one raw node (identity 5, the only node of the heap)
ends the session with *two* Definitions created for it — the walker
re-resolves it as the root of message `t` when the by-name lookup misses
under a model-name prefix — even though both cycle-closing properties are
REFERENCEs to the first cached Definition (index 0). -/
theorem C5_counterexample :
    (parseWsdl "a.wsdl" ⟨some "P", none, none⟩ false c5heap c5wsdl 4).map
      (fun pw => pw.definitions.map (fun d => (d.name, d.properties))) =
      .ok [("PT", [Property.reference "s" "s" (some "") 0 false]),
           ("PT", [Property.reference "s" "s" (some "") 0 false])] ∧
    c5heap.length = 1 ∧ (2 : Nat) ≠ 1 :=
  ⟨rfl, rfl, by decide⟩

/-- C5 amended: within one resolver call tree the cache is keyed by node
identity: two properties (`x`, `y`) holding the very same raw node resolve
to exactly one Definition (index 1) referenced twice, while two
structurally identical but distinct raw nodes yield two distinct
Definitions (indices 1 and 2); but the walker can create an additional
Definition for an already-visited node when re-resolving it as a message
root whose name lookup misses. -/
theorem C5_sharing_amended :
    parseDefinition ⟨64, false⟩ shareHeap defaultOptions 3 "p" (.node 0) ["p"] ⟨[], []⟩ =
      .ok (0, ⟨[⟨"P", "p", ["p"], [Property.reference "x" "x" none 1 false,
                  Property.reference "y" "y" (some "") 1 false], ""⟩,
                ⟨"X", "x", ["x"], [Property.primitive "v" "v" "int" "number" false], ""⟩],
        [⟨"P", .node 0, 0⟩, ⟨"X", .node 1, 1⟩]⟩) ∧
    parseDefinition ⟨64, false⟩ distinctHeap defaultOptions 3 "p" (.node 0) ["p"] ⟨[], []⟩ =
      .ok (0, ⟨[⟨"P", "p", ["p"], [Property.reference "x" "x" none 1 false,
                  Property.reference "y" "y" none 2 false], ""⟩,
                ⟨"X", "x", ["x"], [Property.primitive "v" "v" "int" "number" false], ""⟩,
                ⟨"Y", "y", ["y"], [Property.primitive "v" "v" "int" "number" false], ""⟩],
        [⟨"P", .node 0, 0⟩, ⟨"X", .node 1, 1⟩, ⟨"Y", .node 2, 2⟩]⟩) ∧
    (1 : Nat) ≠ 2 :=
  ⟨rfl, rfl, by decide⟩

/-- C7 counterexample: with every message declaring neither element nor
parts, the four guarded roles yield absent definitions, but the output body
role — whose element-absent branch has no parts guard — synthesizes an
empty Definition `O` and attaches it: `returnDefinition` is `some 0`, not
absent. -/
theorem C7_counterexample :
    (parseWsdl "a.wsdl" ⟨none, none, none⟩ false [] c7wsdl 2).map
      (fun pw => (pw.ports.map (fun p => p.methods.map (fun meth =>
        (meth.paramDefinition, meth.returnDefinition, meth.inputHeaderDefinition,
         meth.outputHeaderDefinition, meth.faultDefinition))), pw.definitions)) =
      .ok ([[((none : Option Nat), some 0, (none : Option Nat), (none : Option Nat),
        (none : Option Nat))]], [⟨"O", "o", ["o"], [], ""⟩]) ∧
    (some 0 : Option Nat) ≠ none :=
  ⟨rfl, by decide⟩

/-- C9 counterexample: with `modelPropertyNaming` set to camelCase, the
emission stage rewrites the Property name `"Foo"` of the session's
Definition to `"foo"` in place — the session root is not consumed
read-only. -/
theorem C9_counterexample :
    generateDefinitionFile ⟨false, some .camelCase⟩ 2 0 (c9defs, []) =
      ([⟨"D", "D", [], [Property.primitive "foo" "Foo" "x" "string" false], ""⟩], [0]) ∧
    ("foo" : String) ≠ "Foo" :=
  ⟨rfl, by decide⟩

theorem genPropsCore_none_fst
    (gdf : Nat → List Definition × List Nat → List Definition × List Nat)
    (defIdx : Nat) (Hgdf : ∀ r s, (gdf r s).1 = s.1) :
    ∀ (pairs : List (Nat × Property)) (defs : List Definition) (gen : List Nat),
      (∀ q ∈ pairs, setPropAt defs defIdx q.1 q.2 = defs) →
      (genPropsCore gdf none defIdx pairs (defs, gen)).1 = defs := by
  intro pairs
  induction pairs with
  | nil => intro defs gen _; rfl
  | cons q rest ih =>
    intro defs gen hset
    obtain ⟨i, p⟩ := q
    unfold genPropsCore
    simp only [renameProp]
    rw [hset (i, p) (List.mem_cons_self _ _)]
    cases p with
    | primitive n sn d t a =>
      exact ih defs gen (fun q2 hq2 => hset q2 (List.mem_cons_of_mem _ hq2))
    | reference n sn d r a =>
      show (genPropsCore gdf none defIdx rest
        (if gen.contains r = true then (defs, gen) else gdf r (defs, gen))).1 = defs
      by_cases hc : gen.contains r = true
      · rw [if_pos hc]
        exact ih defs gen (fun q2 hq2 => hset q2 (List.mem_cons_of_mem _ hq2))
      · rw [if_neg hc]
        have hfst := Hgdf r (defs, gen)
        rcases hgg : gdf r (defs, gen) with ⟨defs2, gen2⟩
        rw [hgg] at hfst
        simp only [] at hfst
        rw [hfst] at hgg ⊢
        exact ih defs gen2 (fun q2 hq2 => hset q2 (List.mem_cons_of_mem _ hq2))

theorem generateDefinitionFile_none_fst (b : Bool) :
    ∀ (fuel defIdx : Nat) (s : List Definition × List Nat),
      (generateDefinitionFile ⟨b, none⟩ fuel defIdx s).1 = s.1 := by
  intro fuel
  induction fuel with
  | zero => intro defIdx s; rfl
  | succ f ih =>
    intro defIdx s
    obtain ⟨defs, gen⟩ := s
    unfold generateDefinitionFile
    cases hget : defs.get? defIdx with
    | none => rfl
    | some d =>
      simp only [hget]
      apply genPropsCore_none_fst _ defIdx (fun r s2 => ih r s2)
      intro q hq
      obtain ⟨i, p⟩ := q
      have hget2 : d.properties.get? i = some p := List.mk_mem_enum_iff_get?.mp hq
      have hsp : d.properties.set i p = d.properties := list_set_self _ _ _ hget2
      unfold setPropAt
      rw [hget]
      show defs.set defIdx { d with properties := d.properties.set i p } = defs
      rw [hsp]
      have heta : ({ d with properties := d.properties } : Definition) = d := rfl
      rw [heta]
      exact list_set_self _ _ _ hget

/-- C9 amended: the emission stage leaves the session's Definitions and
Properties untouched exactly when `modelPropertyNaming` is unset (the
default); when a naming option is configured, `generateDefinitionFile`
rewrites each Property's name in place (PascalCase shown concretely). -/
theorem C9_immutability_amended :
    (∀ (b : Bool) (fuel defIdx : Nat) (s : List Definition × List Nat),
      (generateDefinitionFile ⟨b, none⟩ fuel defIdx s).1 = s.1) ∧
    generateDefinitionFile ⟨false, some .pascalCase⟩ 2 0 (c9defs2, []) =
      ([⟨"D", "D", [], [Property.primitive "Bar" "bar" "x" "string" false], ""⟩], [0]) ∧
    generatorDefaultOptions.modelPropertyNaming = none :=
  ⟨fun b => generateDefinitionFile_none_fst b, rfl, rfl⟩

theorem prefix_get? {α : Type} {l1 l2 : List α} (h : l1 <+: l2) (k : Nat)
    (hk : k < l1.length) : l2.get? k = l1.get? k := by
  obtain ⟨t, rfl⟩ := h
  exact List.get?_append hk

theorem registerDef_get (opts : ParserOptions) (name cand : String)
    (dp : DefParts) (st : ParseState) :
    (registerDef opts name cand dp st).definitions.get? st.definitions.length =
      some (mkDefinition opts name cand) :=
  List.get?_concat_length _ _

theorem registerDef_length (opts : ParserOptions) (name cand : String)
    (dp : DefParts) (st : ParseState) :
    (registerDef opts name cand dp st).definitions.length =
      st.definitions.length + 1 := by
  unfold registerDef
  simp

theorem finishDef_get_at (st : ParseState) (i : Nat) (ds : List String)
    (ps : List Property) (d : Definition) (hget : st.definitions.get? i = some d) :
    (finishDef st i ds ps).definitions.get? i =
      some { d with docs := d.docs ++ ds, properties := ps } := by
  obtain ⟨hlt, -⟩ := List.get?_eq_some.mp hget
  unfold finishDef
  rw [hget]
  show (st.definitions.set i { d with docs := d.docs ++ ds, properties := ps }).get? i = _
  exact List.get?_set_eq_of_lt _ hlt

/-- C10: whenever `parseDefinition` succeeds, the collision check received
exactly the PascalCased source name — no prefix, no suffix — and the
Definition created at the end of the session collection stores as its final
name the prefix, the PascalCased collision-free name and the suffix,
concatenated in that order: prefix/suffix concatenation happens strictly
after collision resolution. -/
theorem C10_prefix_after_collision (cfg : SessionConfig) (heap : Heap)
    (opts : ParserOptions) (fuel : Nat) (name : String) (defParts : DefParts)
    (stack : List String) (st : ParseState) (i : Nat) (st' : ParseState)
    (h : parseDefinition cfg heap opts fuel name defParts stack st = .ok (i, st')) :
    ∃ cand, findNonCollisionDefinitionName cfg st.definitions (changeCase name true) = some cand ∧
      i = st.definitions.length ∧
      ∃ d, st'.definitions.get? i = some d ∧
        d.name = opts.modelNamePreffix ++ changeCase cand true ++ opts.modelNameSuffix ∧
        d.sourceName = name := by
  cases fuel with
  | zero => exact absurd h (by simp [parseDefinition])
  | succ f =>
    unfold parseDefinition at h
    cases hreg : findNonCollisionDefinitionName cfg st.definitions (changeCase name true) with
    | none => simp only [hreg] at h; exact Except.noConfusion h
    | some cand =>
      simp only [hreg] at h
      refine ⟨cand, rfl, ?_⟩
      cases defParts with
      | str s =>
        cases hsplit : splitOnChar '|' s with
        | nil => simp only [hsplit] at h; exact Except.noConfusion h
        | cons p0 prest =>
          cases prest with
          | nil => simp only [hsplit] at h; exact Except.noConfusion h
          | cons p1 prest2 =>
            simp only [hsplit, Except.ok.injEq, Prod.mk.injEq] at h
            obtain ⟨hi, hst⟩ := h
            subst hi
            refine ⟨rfl, ?_⟩
            rw [← hst]
            exact ⟨_, finishDef_get_at (registerDef opts name cand (.str s) st)
              st.definitions.length [] _ (mkDefinition opts name cand)
              (registerDef_get opts name cand (.str s) st), rfl, rfl⟩
      | absent =>
        simp only [Except.ok.injEq, Prod.mk.injEq] at h
        obtain ⟨hi, hst⟩ := h
        subst hi
        refine ⟨rfl, ?_⟩
        rw [← hst]
        exact ⟨_, registerDef_get opts name cand .absent st, rfl, rfl⟩
      | node id =>
        cases hlook : heap.lookupNode id with
        | none =>
          simp only [hlook, Except.ok.injEq, Prod.mk.injEq] at h
          obtain ⟨hi, hst⟩ := h
          subst hi
          refine ⟨rfl, ?_⟩
          rw [← hst]
          exact ⟨_, registerDef_get opts name cand (.node id) st, rfl, rfl⟩
        | some raw =>
          simp only [hlook] at h
          by_cases hq : raw.undefQuirk = true
          · rw [if_pos hq] at h
            simp only [Except.ok.injEq, Prod.mk.injEq] at h
            obtain ⟨hi, hst⟩ := h
            subst hi
            refine ⟨rfl, ?_⟩
            rw [← hst]
            exact ⟨_, registerDef_get opts name cand (.node id) st, rfl, rfl⟩
          · rw [if_neg hq] at h
            cases hpec : processEntriesCore (parseDefinition cfg heap opts f) heap
                raw.entries name stack (registerDef opts name cand (.node id) st) with
            | error e => simp only [hpec] at h; exact Except.noConfusion h
            | ok trip =>
              obtain ⟨docs2, props2, st2⟩ := trip
              simp only [hpec, Except.ok.injEq, Prod.mk.injEq] at h
              obtain ⟨hi, hst⟩ := h
              subst hi
              refine ⟨rfl, ?_⟩
              rw [← hst]
              have hev := processEntriesCore_rel _ (StateEvolves opts) heap
                (stateEvolves_refl opts) (fun a b => stateEvolves_trans a b)
                (fun n dp sk s2 j s3 hx =>
                  parseDefinition_evolves cfg heap opts f n dp sk s2 j s3 hx)
                raw.entries name stack _ docs2 props2 st2 hpec
              have hk : st.definitions.length <
                  (registerDef opts name cand (.node id) st).definitions.length := by
                rw [registerDef_length]
                omega
              have hget2 : st2.definitions.get? st.definitions.length =
                  some (mkDefinition opts name cand) :=
                (prefix_get? hev.1 st.definitions.length hk).trans
                  (registerDef_get opts name cand (.node id) st)
              exact ⟨_, finishDef_get_at st2 st.definitions.length docs2 props2 _ hget2,
                rfl, rfl⟩

theorem C10_prefix_after_collision_witness :
    ∃ cand, findNonCollisionDefinitionName ⟨64, false⟩
        (⟨[], []⟩ : ParseState).definitions (changeCase "address" true) = some cand ∧
      (0 : Nat) = (⟨[], []⟩ : ParseState).definitions.length ∧
      ∃ d, (registerDef ⟨"Pre", "Suf", 64⟩ "address" "Address" .absent
          ⟨[], []⟩).definitions.get? 0 = some d ∧
        d.name = ("Pre" : String) ++ changeCase cand true ++ "Suf" ∧
        d.sourceName = "address" :=
  C10_prefix_after_collision ⟨64, false⟩ [] ⟨"Pre", "Suf", 64⟩ 1 "address" .absent
    ["address"] ⟨[], []⟩ 0
    (registerDef ⟨"Pre", "Suf", 64⟩ "address" "Address" .absent ⟨[], []⟩) rfl

/-- C8 amended: a raw mapping carrying the decoder-quirk key is skipped
wholesale — the enclosing Definition is still produced (collection grows by
one) with zero properties, resolution does not fail, but the mapping's
other entries are *not* processed as properties. -/
theorem C8_quirk_amended (cfg : SessionConfig) (heap : Heap)
    (opts : ParserOptions) (fuel : Nat) (name : String) (id : Nat)
    (stack : List String) (st : ParseState) (raw : RawNode) (cand : String)
    (hlook : heap.lookupNode id = some raw)
    (hq : raw.undefQuirk = true)
    (hreg : findNonCollisionDefinitionName cfg st.definitions (changeCase name true) = some cand) :
    parseDefinition cfg heap opts (fuel + 1) name (.node id) stack st =
      .ok (st.definitions.length, registerDef opts name cand (.node id) st) ∧
    (registerDef opts name cand (.node id) st).definitions.get?
      st.definitions.length = some (mkDefinition opts name cand) ∧
    (mkDefinition opts name cand).properties = [] ∧
    (registerDef opts name cand (.node id) st).definitions.length =
      st.definitions.length + 1 := by
  refine ⟨?_, registerDef_get opts name cand (.node id) st, rfl,
    registerDef_length opts name cand (.node id) st⟩
  unfold parseDefinition
  simp only [hreg, hlook]
  rw [if_pos hq]

theorem C8_quirk_amended_witness :
    parseDefinition ⟨64, false⟩ c8heap defaultOptions (1 + 1) "q" (.node 0) ["q"] ⟨[], []⟩ =
      .ok ((⟨[], []⟩ : ParseState).definitions.length,
        registerDef defaultOptions "q" "Q" (.node 0) ⟨[], []⟩) ∧
    (registerDef defaultOptions "q" "Q" (.node 0) ⟨[], []⟩).definitions.get?
      (⟨[], []⟩ : ParseState).definitions.length = some (mkDefinition defaultOptions "q" "Q") ∧
    (mkDefinition defaultOptions "q" "Q").properties = [] ∧
    (registerDef defaultOptions "q" "Q" (.node 0) ⟨[], []⟩).definitions.length =
      (⟨[], []⟩ : ParseState).definitions.length + 1 :=
  C8_quirk_amended ⟨64, false⟩ c8heap defaultOptions 1 "q" 0 ["q"] ⟨[], []⟩
    ⟨none, true, [("a", RawVal.prim "int")]⟩ "Q" rfl rfl rfl

theorem resolveHeaderRole_absent (cfg : SessionConfig) (heap : Heap)
    (opts : ParserOptions) (w : Wsdl) (fuel : Nat) (hdr : Option String)
    (st : ParseState)
    (hh : ∀ hn, hdr = some hn → ∃ msg, lookupMessage w hn = some msg ∧
      msg.element = none ∧ msg.parts.truthy = false) :
    resolveHeaderRole cfg heap opts w fuel hdr st = .ok (none, st) := by
  cases hdr with
  | none => rfl
  | some hn =>
    obtain ⟨msg, hlm, hel, ht⟩ := hh hn rfl
    unfold resolveHeaderRole
    simp [hlm, hel, ht]

theorem resolveInputBody_absent (cfg : SessionConfig) (heap : Heap)
    (opts : ParserOptions) (w : Wsdl) (fuel : Nat) (inName paramName : String)
    (st : ParseState) (msg : WsdlMessage)
    (hlm : lookupMessage w inName = some msg) (hel : msg.element = none)
    (ht : msg.parts.truthy = false) :
    resolveInputBody cfg heap opts w fuel inName paramName st = .ok (none, st) := by
  unfold resolveInputBody
  simp [hlm, hel, ht]

theorem resolveFaultRole_absent (cfg : SessionConfig) (heap : Heap)
    (opts : ParserOptions) (w : Wsdl) (fuel : Nat) (fName : String)
    (st : ParseState) (msg : WsdlMessage)
    (hlm : lookupMessage w fName = some msg) (hel : msg.element = none)
    (ht : msg.parts.truthy = false) :
    resolveFaultRole cfg heap opts w fuel fName st = .ok (none, st) := by
  unfold resolveFaultRole
  simp [hlm, hel, ht]

/-- C7 amended: in a successful method resolution where every declared
message section has neither an element nor truthy parts, the input header,
input body, output header and fault roles all carry an absent definition —
not a synthesized one; a method without an output section has an absent
`returnDefinition` as well; but a method *with* an output section whose
message declares neither an element nor parts gets a freshly synthesized
empty Definition attached as its `returnDefinition` (the output branch has
no parts guard). -/
theorem C7_missing_parts_amended (cfg : SessionConfig) (heap : Heap)
    (opts : ParserOptions) (w : Wsdl) (fuel : Nat) (methodName : String)
    (m : WsdlMethod) (st0 : ParseState) (meth : Method) (st' : ParseState)
    (hih : ∀ hn, m.inputHeader = some hn → ∃ msg, lookupMessage w hn = some msg ∧
      msg.element = none ∧ msg.parts.truthy = false)
    (hin : ∀ n, m.input = some n → ∃ msg, lookupMessage w n = some msg ∧
      msg.element = none ∧ msg.parts.truthy = false)
    (hoh : ∀ hn, m.outputHeader = some hn → ∃ msg, lookupMessage w hn = some msg ∧
      msg.element = none ∧ msg.parts.truthy = false)
    (hfl : ∀ n, m.fault = some n → ∃ msg, lookupMessage w n = some msg ∧
      msg.element = none ∧ msg.parts.truthy = false)
    (hout : ∀ n, m.output = some n → ∃ msg, lookupMessage w n = some msg ∧
      msg.element = none ∧ msg.parts = DefParts.absent ∧
      findDefinition st0.definitions n = none)
    (h : processMethod cfg heap opts w fuel methodName m st0 = .ok (meth, st')) :
    meth.inputHeaderDefinition = none ∧ meth.paramDefinition = none ∧
    meth.outputHeaderDefinition = none ∧ meth.faultDefinition = none ∧
    (m.output = none → meth.returnDefinition = none) ∧
    (∀ n, m.output = some n →
      meth.returnDefinition = some st0.definitions.length ∧
      ∃ d, st'.definitions.get? st0.definitions.length = some d ∧
        d.properties = []) := by
  have r1 : runRole m.input
      (fun _ s => resolveHeaderRole cfg heap opts w fuel m.inputHeader s) st0 =
      .ok (none, st0) := by
    cases m.input with
    | none => rfl
    | some n => exact resolveHeaderRole_absent cfg heap opts w fuel m.inputHeader st0 hih
  have r2 : runRole m.input
      (fun inName s =>
        resolveInputBody cfg heap opts w fuel inName (methodParamName m) s) st0 =
      .ok (none, st0) := by
    cases hi : m.input with
    | none => rfl
    | some n =>
      obtain ⟨msg, hlm, hel, ht⟩ := hin n hi
      exact resolveInputBody_absent cfg heap opts w fuel n (methodParamName m) st0
        msg hlm hel ht
  have r3 : runRole m.output
      (fun _ s => resolveHeaderRole cfg heap opts w fuel m.outputHeader s) st0 =
      .ok (none, st0) := by
    cases m.output with
    | none => rfl
    | some n => exact resolveHeaderRole_absent cfg heap opts w fuel m.outputHeader st0 hoh
  unfold processMethod at h
  simp only [r1, r2, r3] at h
  cases ho : m.output with
  | none =>
    have r4 : runRole m.output
        (fun outName s => resolveOutputBody cfg heap opts w fuel outName s) st0 =
        .ok (none, st0) := by simp only [ho, runRole]
    have r5 : runRole m.fault
        (fun fName s => resolveFaultRole cfg heap opts w fuel fName s) st0 =
        .ok (none, st0) := by
      cases hf : m.fault with
      | none => rfl
      | some n2 =>
        obtain ⟨msg, hlm, hel, ht⟩ := hfl n2 hf
        exact resolveFaultRole_absent cfg heap opts w fuel n2 st0 msg hlm hel ht
    simp only [r4, r5, Except.ok.injEq, Prod.mk.injEq] at h
    obtain ⟨hm, -⟩ := h
    rw [← hm]
    refine ⟨rfl, rfl, rfl, rfl, fun _ => rfl, ?_⟩
    intro n hn
    exact Option.noConfusion hn
  | some n =>
    obtain ⟨msg, hlm, hel, hparts, hfd⟩ := hout n ho
    have r4 : runRole m.output
        (fun outName s => resolveOutputBody cfg heap opts w fuel outName s) st0 =
        resolveOutputBody cfg heap opts w fuel n st0 := by simp only [ho, runRole]
    simp only [r4] at h
    unfold resolveOutputBody at h
    simp only [hlm, hel] at h
    unfold resolveNamedParts at h
    simp only [hfd, hparts] at h
    cases fuel with
    | zero =>
      have hpd0 : parseDefinition cfg heap opts 0 n .absent [n] st0 =
          .error .outOfFuel := rfl
      simp only [hpd0] at h
      exact absurd h (by simp)
    | succ f2 =>
      cases hreg2 : findNonCollisionDefinitionName cfg st0.definitions
          (changeCase n true) with
      | none =>
        have hpdE : parseDefinition cfg heap opts (f2 + 1) n .absent [n] st0 =
            .error (.collisionAt [n] n) := by
          unfold parseDefinition
          simp only [hreg2]
        simp only [hpdE] at h
        exact absurd h (by simp)
      | some cand =>
        have hpd : parseDefinition cfg heap opts (f2 + 1) n .absent [n] st0 =
            .ok (st0.definitions.length, registerDef opts n cand .absent st0) := by
          unfold parseDefinition
          simp only [hreg2]
        simp only [hpd] at h
        have r5 : runRole m.fault
            (fun fName s => resolveFaultRole cfg heap opts w (f2 + 1) fName s)
            (registerDef opts n cand .absent st0) =
            .ok (none, registerDef opts n cand .absent st0) := by
          cases hf : m.fault with
          | none => rfl
          | some n2 =>
            obtain ⟨msg2, hlm2, hel2, ht2⟩ := hfl n2 hf
            exact resolveFaultRole_absent cfg heap opts w (f2 + 1) n2 _ msg2 hlm2 hel2 ht2
        simp only [r5, Except.ok.injEq, Prod.mk.injEq] at h
        obtain ⟨hm, hst⟩ := h
        rw [← hm]
        refine ⟨rfl, rfl, rfl, rfl, ?_, ?_⟩
        · intro hcontra
          exact Option.noConfusion hcontra
        · intro n2 hn2
          injection hn2 with hn2
          subst hn2
          refine ⟨rfl, ?_⟩
          rw [← hst]
          exact ⟨_, registerDef_get opts n cand .absent st0, rfl⟩

theorem C7_missing_parts_amended_witness :
    (⟨"m", "i", none, some 0, none, none, none⟩ : Method).inputHeaderDefinition = none ∧
    (⟨"m", "i", none, some 0, none, none, none⟩ : Method).paramDefinition = none ∧
    (⟨"m", "i", none, some 0, none, none, none⟩ : Method).outputHeaderDefinition = none ∧
    (⟨"m", "i", none, some 0, none, none, none⟩ : Method).faultDefinition = none ∧
    ((⟨some "i", some "ih", some "o", some "oh", some "f"⟩ : WsdlMethod).output = none →
      (⟨"m", "i", none, some 0, none, none, none⟩ : Method).returnDefinition = none) ∧
    (∀ n, (⟨some "i", some "ih", some "o", some "oh", some "f"⟩ : WsdlMethod).output = some n →
      (⟨"m", "i", none, some 0, none, none, none⟩ : Method).returnDefinition =
        some (⟨[], []⟩ : ParseState).definitions.length ∧
      ∃ d, (registerDef defaultOptions "o" "O" .absent ⟨[], []⟩).definitions.get?
          (⟨[], []⟩ : ParseState).definitions.length = some d ∧ d.properties = []) :=
  C7_missing_parts_amended ⟨64, false⟩ [] defaultOptions c7wsdl 1 "m"
    ⟨some "i", some "ih", some "o", some "oh", some "f"⟩ ⟨[], []⟩
    ⟨"m", "i", none, some 0, none, none, none⟩
    (registerDef defaultOptions "o" "O" .absent ⟨[], []⟩)
    (fun hn hh => by cases hh; exact ⟨⟨none, .absent⟩, rfl, rfl, rfl⟩)
    (fun n hh => by cases hh; exact ⟨⟨none, .absent⟩, rfl, rfl, rfl⟩)
    (fun hn hh => by cases hh; exact ⟨⟨none, .absent⟩, rfl, rfl, rfl⟩)
    (fun n hh => by cases hh; exact ⟨⟨none, .absent⟩, rfl, rfl, rfl⟩)
    (fun n hh => by cases hh; exact ⟨⟨none, .absent⟩, rfl, rfl, rfl, rfl⟩)
    rfl

end WsdlTs
